import Mathlib

/-!
Verification of the bounded-concurrency, cache-aware resource fetcher of
`src/utils.ts` (`getBinarySize`, `_loadBinaryResource`, `loadBinaryResource`,
`sumArr`).

The TypeScript source runs on a single-threaded JavaScript event loop with
cooperative async interleaving.  The embedding below mirrors it as follows:

* JavaScript numbers that can be `NaN` are modelled as `Option Int`
  (`none` = `NaN`); byte counts coming from `ProgressEvent` fields are
  non-negative and are modelled as `Nat`.
* `getBinarySize` is modelled as a function of the `Content-Length` header
  observed at `HEADERS_RECEIVED` (`Option String`, `none` = header absent).
  The JavaScript builtins `+value` (ToNumber) and `parseInt` are modelled for
  optionally-signed decimal strings, the domain of `Content-Length` values.
* `_loadBinaryResource` is modelled as a function of the cache configuration
  and of a `TransferSpec` describing what the underlying `XMLHttpRequest`
  does (progress events, final response or network error, and whether
  `cache.put` rejects).
* `loadBinaryResource` is modelled as a deterministic machine over an
  explicit event-loop schedule: each schedule entry names a "download
  thread" (worker) and delivers that worker's next pending progress event,
  or settles its in-flight fetch when no events remain.  All statements
  about the scheduler quantify over every schedule and every transfer
  behaviour (`Script` per task).
-/

namespace Wllama

/-! ## JavaScript number coercions (modelled builtins)

Modelled from the JavaScript runtime semantics (these builtins are not part
of the repository): `jsToNumber` is string ToNumber (the `+value` coercion)
and `jsParseInt` is `parseInt(value)` with no radix argument, both restricted
to optionally-signed decimal strings — the shapes a `Content-Length` header
can take.  `none` stands for `NaN`. -/

def digitVal (c : Char) : Option Nat :=
  if c.isDigit then some (c.toNat - 48) else none

/-- Parse a nonempty all-digit character list as a natural number;
`none` when empty or when any character is not a digit. -/
def parseDigits (l : List Char) : Option Nat :=
  match l with
  | [] => none
  | _ => l.foldl (fun acc c => acc.bind (fun n => (digitVal c).map (fun d => n * 10 + d)))
      (some 0)

/-- JavaScript whitespace, as stripped by ToNumber and `parseInt`. -/
def isJsSpace (c : Char) : Bool :=
  c == ' ' || c == '\t' || c == '\n' || c == '\r'

/-- Strip leading and trailing whitespace. -/
def trimList (l : List Char) : List Char :=
  ((l.dropWhile isJsSpace).reverse.dropWhile isJsSpace).reverse

/-- JavaScript `+value` (string ToNumber), restricted to optionally-signed
decimal integer literals.  The empty (or all-whitespace) string coerces
to `0`. -/
def jsToNumber (s : String) : Option Int :=
  match trimList s.toList with
  | [] => some 0
  | c :: rest =>
    if c = '-' then (parseDigits rest).map (fun n => -(n : Int))
    else if c = '+' then (parseDigits rest).map (fun n => (n : Int))
    else (parseDigits (c :: rest)).map (fun n => (n : Int))

/-- JavaScript `parseInt(value)` restricted to optionally-signed decimal
strings: take the longest digit prefix after the sign; `NaN` (`none`) when
there is no digit, in particular `parseInt('') = NaN`. -/
def jsParseInt (s : String) : Option Int :=
  let core : List Char → Int → Option Int := fun l sign =>
    match l.takeWhile Char.isDigit with
    | [] => none
    | digs => (parseDigits digs).map (fun n => sign * (n : Int))
  match trimList s.toList with
  | [] => none
  | c :: rest =>
    if c = '-' then core rest (-1)
    else if c = '+' then core rest 1
    else core (c :: rest) 1

/-- JavaScript `+` on two possibly-`NaN` numbers: `NaN` is absorbing. -/
def jsAdd (a b : Option Int) : Option Int :=
  match a, b with
  | some x, some y => some (x + y)
  | _, _ => none

/-- `sumArr` from `src/utils.ts` applied to a list of possibly-`NaN`
JavaScript numbers: `arr.reduce((prev, curr) => prev + curr, 0)`. -/
def sumArrJS (arr : List (Option Int)) : Option Int :=
  arr.foldl jsAdd (some 0)

/-- `sumArr` from `src/utils.ts` applied to non-negative numbers
(the `sizeLoaded` fields, which come from `ProgressEvent.loaded`). -/
def sumArr (arr : List Nat) : Nat :=
  arr.foldl (fun prev curr => prev + curr) 0

/-! ## Size probe: `getBinarySize` (src/utils.ts lines 53-73)

The probe resolves or rejects at `HEADERS_RECEIVED` as a function of the
`Content-Length` header:

```
const value = req.getResponseHeader('Content-Length') ?? '';
req.abort();
if (isNaN(+value)) { reject(new Error('Content-Length is not a number')); }
else { resolve(parseInt(value)); }
```

A transport-level failure before headers (`req.onerror`) also rejects; the
model describes the header-examination step, i.e. runs in which headers were
received. -/

inductive ProbeResult where
  | rejected
  | resolved (value : Option Int)
deriving DecidableEq

/-- `getBinarySize`, as a function of the observed `Content-Length` header
(`none` when the header is absent, in which case `?? ''` substitutes the
empty string). -/
def getBinarySize (contentLength : Option String) : ProbeResult :=
  let value := contentLength.getD ("")
  match jsToNumber value with
  | none => ProbeResult.rejected
  | some _ => ProbeResult.resolved (jsParseInt value)

/-! ## Single-part fetcher: `_loadBinaryResource` (src/utils.ts lines 1-48) -/

/-- Behaviour of the underlying `XMLHttpRequest` GET plus the `cache.put`
call, for one URL: the progress events the transport fires (as
`(loaded, total)` pairs), the final settlement (`some bytes` = `onload` with
that response buffer, `none` = `onerror`), and whether the `cache.put`
performed inside the `onload` handler rejects. -/
structure TransferSpec where
  events : List (Nat × Nat)
  response : Option (List Nat)
  putFails : Bool
deriving DecidableEq

/-- How the promise returned by `_loadBinaryResource` settles.  `hung` means
it never settles: neither `resolve` nor `reject` is ever invoked. -/
inductive FetchResult where
  | ok (bytes : List Nat)
  | err
  | hung
deriving DecidableEq

/-- Observable outcome of one `_loadBinaryResource` call: the settlement,
the progress events delivered to the supplied callback, and whether a
network transfer was performed at all. -/
structure FetchRun where
  result : FetchResult
  progressEvents : List (Nat × Nat)
  networkUsed : Bool
deriving DecidableEq

/-- `_loadBinaryResource url progressCallback?`.  `cache` is
`window.caches` availability: `none` when the environment has no cache
support, `some lookup` for the opened `wllama_cache` contents.  On a cache
hit the cached bytes are returned with no transfer.  On a miss the transfer
runs; `onprogress` is attached only when a callback was supplied.  In the
`onload` handler the code runs `if (cache) { await cache.put(...) };
resolve(byteArray)`: when the cache is present and `put` rejects, the async
handler aborts before `resolve`, so the promise never settles (`hung`). -/
def _loadBinaryResource (url : String) (cache : Option (String → Option (List Nat)))
    (transfer : TransferSpec) (hasCallback : Bool) : FetchRun :=
  match cache with
  | some lookup =>
    match lookup url with
    | some bytes => ⟨FetchResult.ok bytes, [], false⟩
    | none =>
      { result :=
          match transfer.response with
          | none => FetchResult.err
          | some bytes => if transfer.putFails then FetchResult.hung else FetchResult.ok bytes
        progressEvents := if hasCallback then transfer.events else []
        networkUsed := true }
  | none =>
      { result :=
          match transfer.response with
          | none => FetchResult.err
          | some bytes => FetchResult.ok bytes
        progressEvents := if hasCallback then transfer.events else []
        networkUsed := true }

/-! ## Scheduler: `loadBinaryResource` (src/utils.ts lines 89-149)

The task registry entry, exactly the record built at lines 99-111. -/

structure Task where
  url : String
  result : List Nat
  started : Bool
  sizeTotal : Nat
  sizeLoaded : Nat
deriving DecidableEq

def dummyTask : Task := ⟨("") , [], false, 0, 0⟩

def initTask (u : String) : Task := ⟨u, [], false, 0, 0⟩

/-- What `_loadBinaryResource(task.url, ...)` does for one task: the progress
events it fires at the always-attached progress closure, and how it settles
(`some bytes` = resolve, `none` = reject).  A fetch that never settles (see
`FetchResult.hung`) corresponds to a schedule that never delivers the
settlement step. -/
structure Script where
  events : List (Nat × Nat)
  outcome : Option (List Nat)
deriving DecidableEq

def dummyScript : Script := ⟨[], none⟩

/-- The script of the task at index `i` (the transfer behaviour of
`urls[i]`). -/
def scriptOf (spec : List Script) (i : Nat) : Script :=
  spec.getD i dummyScript

/-- State of one "download thread" (`runDownloadThread`): currently awaiting
the fetch of task `taskIdx` with `pending` behaviour still to happen,
returned normally (`exited`), or terminated by a rejected fetch
(`failed`). -/
inductive WStatus where
  | fetching (taskIdx : Nat) (pending : Script)
  | exited
  | failed
deriving DecidableEq

def WStatus.isExited : WStatus → Bool
  | WStatus.exited => true
  | _ => false

def allExited (ws : List WStatus) : Bool :=
  ws.all WStatus.isExited

/-- Event-loop state of one `loadBinaryResource` call, instrumented with the
observable histories the claims talk about: `invocations` is the list of
`(loaded, total)` pairs passed to the caller's aggregate progress callback,
`deliveredEvents` the raw per-task transport events in delivery order (task
index, loaded, total), `claimEvents` the task indices claimed, in claim
order.  `rejected` records whether `Promise.all(threads)` has rejected
(it rejects at the first worker rejection). -/
structure SchedState where
  tasks : List Task
  workers : List WStatus
  invocations : List (Nat × Option Int)
  deliveredEvents : List (Nat × Nat × Nat)
  claimEvents : List Nat
  rejected : Bool
deriving DecidableEq

/-- Index of `tasks.find(t => !t.started)`: the first task whose `started`
flag is false, scanning in input order. -/
def firstUnstarted : List Task → Option Nat
  | [] => none
  | t :: ts => if t.started then (firstUnstarted ts).map (· + 1) else some 0

/-- One execution of the claim step of the worker loop, which runs
synchronously (no `await` separates the scan from the flag write):
`const task = tasks.find(t => !t.started); if (!task) return;
task.started = true;` followed by starting `_loadBinaryResource` on the
claimed task.  Returns the updated registry, the worker's new status, and
the updated claim history. -/
def claimNext (spec : List Script) (tasks : List Task) (claims : List Nat) :
    List Task × WStatus × List Nat :=
  match firstUnstarted tasks with
  | none => (tasks, WStatus.exited, claims)
  | some i =>
      (tasks.set i { tasks.getD i dummyTask with started := true },
       WStatus.fetching i (scriptOf spec i),
       claims ++ [i])

/-- Spawning one worker: `threads.push(runDownloadThread())` runs the async
function synchronously up to its first suspension, i.e. it performs the
claim step immediately. -/
def spawnOne (spec : List Script) (s : SchedState) : SchedState :=
  let c := claimNext spec s.tasks s.claimEvents
  { s with tasks := c.1, workers := s.workers ++ [c.2.1], claimEvents := c.2.2 }

/-- `for (let i = 0; i < nMaxParallel; i++) threads.push(runDownloadThread())`. -/
def spawnN (spec : List Script) : Nat → SchedState → SchedState
  | 0, s => s
  | k + 1, s => spawnN spec k (spawnOne spec s)

/-- One event-loop step advancing worker `w`.  If the worker is awaiting a
fetch with pending progress events, the next event fires: the progress
closure writes `task.sizeTotal = progress.total; task.sizeLoaded =
progress.loaded;` and, when a progress callback was supplied, invokes it
with `{ loaded: sumArr(tasks.map(t => t.sizeLoaded)), total: totalSize }`.
If no events remain, the fetch settles: on resolve the worker stores the
bytes into `task.result` and synchronously claims the next task (or
returns); on reject the worker's async function throws, which rejects
`Promise.all(threads)`. -/
def stepWorker (reportProgress : Bool) (totalSize : Option Int) (spec : List Script)
    (s : SchedState) (w : Nat) : SchedState :=
  match s.workers.getD w WStatus.exited with
  | WStatus.exited => s
  | WStatus.failed => s
  | WStatus.fetching i sc =>
    match sc.events with
    | e :: rest =>
        let tasks' := s.tasks.set i
          { s.tasks.getD i dummyTask with sizeTotal := e.2, sizeLoaded := e.1 }
        { s with
            tasks := tasks'
            workers := s.workers.set w (WStatus.fetching i ⟨rest, sc.outcome⟩)
            deliveredEvents := s.deliveredEvents ++ [(i, e.1, e.2)]
            invocations :=
              if reportProgress then
                s.invocations ++ [(sumArr (tasks'.map Task.sizeLoaded), totalSize)]
              else s.invocations }
    | [] =>
      match sc.outcome with
      | some bytes =>
          let tasks' := s.tasks.set i { s.tasks.getD i dummyTask with result := bytes }
          let c := claimNext spec tasks' s.claimEvents
          { s with tasks := c.1, workers := s.workers.set w c.2.1, claimEvents := c.2.2 }
      | none =>
          { s with workers := s.workers.set w WStatus.failed, rejected := true }

/-- Run the event loop along an explicit schedule of worker choices. -/
def runSched (reportProgress : Bool) (totalSize : Option Int) (spec : List Script)
    (s : SchedState) (schedule : List Nat) : SchedState :=
  schedule.foldl (stepWorker reportProgress totalSize spec) s

/-- Initial state: registry built from the urls, then `nWorkers` spawns. -/
def initState (spec : List Script) (urls : List String) (nWorkers : Nat) : SchedState :=
  spawnN spec nWorkers ⟨urls.map initTask, [], [], [], [], false⟩

/-- What the caller receives.  `single`/`many` mirror
`tasks.length === 1 ? tasks[0].result : tasks.map(r => r.result)`;
`error` is a rejection of the returned promise; `pending` means the promise
has not settled yet (some worker still awaits its fetch). -/
inductive LoadResult where
  | single (b : List Nat)
  | many (bs : List (List Nat))
  | error
  | pending
deriving DecidableEq

/-- The settlement of the promise returned by `loadBinaryResource`, read off
the event-loop state: `Promise.all` rejects at the first worker rejection,
resolves once every worker has returned, and is pending otherwise. -/
def shapeResult (s : SchedState) : LoadResult :=
  if s.rejected then LoadResult.error
  else if allExited s.workers then
    match s.tasks with
    | [t] => LoadResult.single t.result
    | ts => LoadResult.many (ts.map Task.result)
  else LoadResult.pending

/-- `Promise.all(urls.map(u => getBinarySize(u)))`: `none` when some probe
rejects (the aggregate promise rejects), otherwise the list of resolved
sizes. -/
def probeAll (headers : String → Option String) : List String → Option (List (Option Int))
  | [] => some []
  | u :: us =>
    match getBinarySize (headers u) with
    | ProbeResult.rejected => none
    | ProbeResult.resolved v => (probeAll headers us).map (fun vs => v :: vs)

/-- Full observable outcome of one `loadBinaryResource` call. -/
structure LoadOutcome where
  result : LoadResult
  invocations : List (Nat × Option Int)
  deliveredEvents : List (Nat × Nat × Nat)
  claimEvents : List Nat
  finalTasks : List Task
  finalWorkers : List WStatus
  spawned : Nat
deriving DecidableEq

/-- `loadBinaryResource(url, nMaxParallel, progressCallback?)`.

`urls` is the normalized identifier list (a non-array argument becomes the
one-element list `[url]`).  `headers` gives each url's `Content-Length`
header for the size probe; `spec` gives each task's transfer behaviour;
`schedule` is the event-loop interleaving.  When a progress callback is
supplied, the sizes of all files are probed first and `totalSize` is fixed
once as their sum; a probe rejection rejects the whole call before any
worker is spawned.  Without a callback `totalSize` stays `-1`.  Then
`nMaxParallel` workers are spawned (the loop `for (let i = 0;
i < nMaxParallel; i++)` runs `max(nMaxParallel, 0)` times) and the event
loop runs. -/
def loadBinaryResource (urls : List String) (nMaxParallel : Int) (reportProgress : Bool)
    (headers : String → Option String) (spec : List Script) (schedule : List Nat) :
    LoadOutcome :=
  if reportProgress then
    match probeAll headers urls with
    | none =>
        ⟨LoadResult.error, [], [], [], urls.map initTask, [], 0⟩
    | some sizes =>
        let s := runSched true (sumArrJS sizes) spec
          (initState spec urls nMaxParallel.toNat) schedule
        ⟨shapeResult s, s.invocations, s.deliveredEvents, s.claimEvents, s.tasks,
          s.workers, nMaxParallel.toNat⟩
  else
    let s := runSched false (some (-1)) spec
      (initState spec urls nMaxParallel.toNat) schedule
    ⟨shapeResult s, s.invocations, s.deliveredEvents, s.claimEvents, s.tasks,
      s.workers, nMaxParallel.toNat⟩

/-! ## Specification-level aggregation functions

These recompute, from the raw delivery history alone, what the aggregate
progress invocations must be; the refinement theorems below prove the
machine's incrementally-maintained invocations equal them. -/

/-- The `(loaded, total)` pairs of the events delivered for task `i`, in
delivery order. -/
def historyFor (h : List (Nat × Nat × Nat)) (i : Nat) : List (Nat × Nat) :=
  (h.filter (fun e => e.1 == i)).map (fun e => e.2)

/-- The most recently reported `loaded` value of task `i` (0 before any
event). -/
def lastLoadedOf (h : List (Nat × Nat × Nat)) (i : Nat) : Nat :=
  (((historyFor h i).map Prod.fst).getLast?).getD 0

/-- Sum over all `n` tasks of the most recently reported `loaded` value. -/
def sumLoaded (n : Nat) (h : List (Nat × Nat × Nat)) : Nat :=
  ((List.range n).map (lastLoadedOf h)).sum

/-- The aggregate progress invocations determined by a delivery history:
one invocation per delivered event, whose `loaded` is the sum of all tasks'
latest reported counts at that point and whose `total` is the fixed
probe-derived total. -/
def aggregateOf (n : Nat) (totalSize : Option Int) (h : List (Nat × Nat × Nat)) :
    List (Nat × Option Int) :=
  (List.range h.length).map (fun j => (sumLoaded n (h.take (j + 1)), totalSize))

/-! ## Basic lemmas -/

theorem sumArr_eq_sum (l : List Nat) : sumArr l = l.sum := by
  have aux : ∀ (l : List Nat) (a : Nat), l.foldl (fun p c => p + c) a = a + l.sum := by
    intro l
    induction l with
    | nil => intro a; simp
    | cons x xs ih => intro a; simp [List.foldl_cons, ih, Nat.add_assoc]
  simpa using aux l 0

theorem historyFor_append_ne (h : List (Nat × Nat × Nat)) (i j : Nat) (a b : Nat)
    (hne : i ≠ j) : historyFor (h ++ [(i, a, b)]) j = historyFor h j := by
  have : ((i, a, b).1 == j) = false := by
    simp only [beq_eq_false_iff_ne]
    exact hne
  simp [historyFor, List.filter_append, this]

theorem historyFor_append_self (h : List (Nat × Nat × Nat)) (i : Nat) (a b : Nat) :
    historyFor (h ++ [(i, a, b)]) i = historyFor h i ++ [(a, b)] := by
  simp [historyFor, List.filter_append]

theorem lastLoadedOf_append_ne (h : List (Nat × Nat × Nat)) (i j : Nat) (a b : Nat)
    (hne : i ≠ j) : lastLoadedOf (h ++ [(i, a, b)]) j = lastLoadedOf h j := by
  simp [lastLoadedOf, historyFor_append_ne h i j a b hne]

theorem lastLoadedOf_append_self (h : List (Nat × Nat × Nat)) (i : Nat) (a b : Nat) :
    lastLoadedOf (h ++ [(i, a, b)]) i = a := by
  simp [lastLoadedOf, historyFor_append_self, List.getLast?_concat]

/-- Appending one event extends the aggregate invocation list by exactly one
entry, holding the new sum. -/
theorem aggregateOf_concat (n : Nat) (ts : Option Int) (h : List (Nat × Nat × Nat))
    (e : Nat × Nat × Nat) :
    aggregateOf n ts (h ++ [e]) = aggregateOf n ts h ++ [(sumLoaded n (h ++ [e]), ts)] := by
  unfold aggregateOf
  rw [List.length_append, List.length_singleton, List.range_succ, List.map_append]
  congr 1
  · apply List.ext_getElem
    · simp
    · intro j h1 h2
      simp only [List.getElem_map, List.getElem_range]
      have hj : j < h.length := by simpa using h1
      rw [List.take_append_of_le_length (by omega)]
  · simp only [List.map_singleton]
    rw [List.take_of_length_le (by simp)]

theorem sumLoaded_eq_of_tasks (tasks : List Task) (h : List (Nat × Nat × Nat))
    (hinv : ∀ i (hi : i < tasks.length), tasks[i].sizeLoaded = lastLoadedOf h i) :
    sumArr (tasks.map Task.sizeLoaded) = sumLoaded tasks.length h := by
  rw [sumArr_eq_sum]
  unfold sumLoaded
  congr 1
  apply List.ext_getElem
  · simp
  · intro j h1 h2
    have hj : j < tasks.length := by simpa using h1
    simp only [List.getElem_map, List.getElem_range]
    exact hinv j hj

/-- `firstUnstarted` on a registry whose started tasks form a prefix of
length `k`: the scan finds index `k` when some task is unstarted, nothing
otherwise. -/
theorem firstUnstarted_spec (tasks : List Task) (k : Nat)
    (hpre : ∀ i (hi : i < tasks.length), (tasks[i].started = true ↔ i < k)) :
    firstUnstarted tasks = if k < tasks.length then some k else none := by
  induction tasks generalizing k with
  | nil => simp [firstUnstarted]
  | cons t ts ih =>
    have h0 : t.started = true ↔ 0 < k := by simpa using hpre 0 (by simp)
    match k with
    | 0 =>
      have hf : t.started = false := by
        cases hb : t.started
        · rfl
        · exact absurd (h0.mp hb) (by omega)
      simp [firstUnstarted, hf]
    | j + 1 =>
      have ht : t.started = true := h0.mpr (Nat.succ_pos j)
      have hts : ∀ i (hi : i < ts.length), (ts[i].started = true ↔ i < j) := by
        intro i hi
        have := hpre (i + 1) (by simpa using Nat.succ_lt_succ hi)
        simpa [Nat.succ_lt_succ_iff] using this
      rw [firstUnstarted, if_pos ht, ih j hts]
      by_cases hlt : j < ts.length
      · simp [hlt, Nat.succ_lt_succ_iff]
      · simp [hlt, Nat.succ_lt_succ_iff]

/-- Existence of an element satisfying `P` in a list updated at an index
whose old and new entries both fail `P` is unchanged. -/
theorem exists_getElem_set_iff {α : Type} (l : List α) (w : Nat) (hw : w < l.length)
    (st : α) (P : α → Prop) (hold : ¬ P l[w]) (hnew : ¬ P st) :
    (∃ (v : Nat) (hv : v < (l.set w st).length), P ((l.set w st)[v])) ↔
      (∃ (v : Nat) (hv : v < l.length), P l[v]) := by
  constructor
  · rintro ⟨v, hv, hPv⟩
    have hv' : v < l.length := by simpa using hv
    by_cases hvw : v = w
    · subst hvw
      rw [List.getElem_set_self] at hPv
      exact absurd hPv hnew
    · rw [List.getElem_set_ne (fun h => hvw h.symm)] at hPv
      exact ⟨v, hv', hPv⟩
  · rintro ⟨v, hv, hPv⟩
    by_cases hvw : v = w
    · subst hvw; exact absurd hPv hold
    · exact ⟨v, by simpa using hv, by rw [List.getElem_set_ne (fun h => hvw h.symm)]; exact hPv⟩

theorem exists_getElem_append_singleton {α : Type} (l : List α) (st : α) (P : α → Prop) :
    (∃ (v : Nat) (hv : v < (l ++ [st]).length), P ((l ++ [st])[v])) ↔
      ((∃ (v : Nat) (hv : v < l.length), P l[v]) ∨ P st) := by
  constructor
  · rintro ⟨v, hv, hPv⟩
    have hv' : v < l.length + 1 := by simpa using hv
    by_cases hvl : v < l.length
    · rw [List.getElem_append_left hvl] at hPv
      exact Or.inl ⟨v, hvl, hPv⟩
    · have hveq : v = l.length := by omega
      subst hveq
      have hst : (l ++ [st])[l.length] = st := by simp
      rw [hst] at hPv
      exact Or.inr hPv
  · rintro (⟨v, hv, hPv⟩ | hPst)
    · refine ⟨v, by simp; omega, ?_⟩
      rw [List.getElem_append_left hv]
      exact hPv
    · have hlen : l.length < (l ++ [st]).length := by simp
      refine ⟨l.length, hlen, ?_⟩
      have hst : (l ++ [st])[l.length] = st := by simp
      rw [hst]
      exact hPst

/-! ## The scheduler invariant

`Inv` packages everything that holds of every reachable event-loop state:
the claim discipline (claimed tasks form a prefix of the registry, each
claimed exactly once, by exactly one worker), provenance of results and of
the per-task progress fields, and the refinement of the incrementally
maintained aggregate-progress invocations by the specification-level
`aggregateOf`. -/

/-- No worker is currently awaiting the fetch of task `i`. -/
def NoWorkerOn (ws : List WStatus) (i : Nat) : Prop :=
  ∀ (w : Nat) (hw : w < ws.length) (sc : Script), ws[w] ≠ WStatus.fetching i sc

/-- Lifecycle of the task at index `i`: not yet claimed; claimed with its
fetch in flight (a unique worker holds the remaining script suffix, `k`
events already delivered); or settled (resolved storing the script's bytes,
or rejected leaving the placeholder empty buffer and the overall call
rejected). -/
def TaskPhase (spec : List Script) (s : SchedState) (i : Nat) (hi : i < s.tasks.length) :
    Prop :=
  (s.tasks[i].started = false ∧ s.tasks[i].result = [] ∧ NoWorkerOn s.workers i ∧
    historyFor s.deliveredEvents i = [])
  ∨ (s.tasks[i].started = true ∧ s.tasks[i].result = [] ∧
      ∃ (w : Nat) (hw : w < s.workers.length) (k : Nat),
        s.workers[w] =
          WStatus.fetching i ⟨(scriptOf spec i).events.drop k, (scriptOf spec i).outcome⟩ ∧
        historyFor s.deliveredEvents i = (scriptOf spec i).events.take k)
  ∨ (s.tasks[i].started = true ∧ NoWorkerOn s.workers i ∧
      historyFor s.deliveredEvents i = (scriptOf spec i).events ∧
      (match (scriptOf spec i).outcome with
       | some b => s.tasks[i].result = b
       | none => s.tasks[i].result = [] ∧ s.rejected = true))

structure Inv (rp : Bool) (ts : Option Int) (spec : List Script) (n : Nat)
    (s : SchedState) : Prop where
  tlen : s.tasks.length = n
  started_iff : ∀ (i : Nat) (hi : i < s.tasks.length),
    (s.tasks[i].started = true ↔ i < s.claimEvents.length)
  claims_eq : s.claimEvents = List.range s.claimEvents.length
  claims_le : s.claimEvents.length ≤ n
  wbound : ∀ (w : Nat) (hw : w < s.workers.length) (i : Nat) (sc : Script),
    s.workers[w] = WStatus.fetching i sc → i < s.tasks.length
  uniq : ∀ (w₁ w₂ : Nat) (h₁ : w₁ < s.workers.length) (h₂ : w₂ < s.workers.length)
    (i : Nat) (sc₁ sc₂ : Script),
    s.workers[w₁] = WStatus.fetching i sc₁ → s.workers[w₂] = WStatus.fetching i sc₂ →
      w₁ = w₂
  rej_iff : s.rejected = true ↔
    ∃ (w : Nat) (hw : w < s.workers.length), s.workers[w] = WStatus.failed
  exited_full : ∀ (w : Nat) (hw : w < s.workers.length),
    s.workers[w] = WStatus.exited → s.claimEvents.length = n
  phase : ∀ (i : Nat) (hi : i < s.tasks.length), TaskPhase spec s i hi
  size_inv : ∀ (i : Nat) (hi : i < s.tasks.length),
    s.tasks[i].sizeLoaded = lastLoadedOf s.deliveredEvents i
  ev_bound : ∀ e ∈ s.deliveredEvents, e.1 < n
  inv_eq : s.invocations = if rp then aggregateOf n ts s.deliveredEvents else []

/-! Unfolding lemmas for `stepWorker`, one per event-loop case. -/

theorem stepWorker_oob (rp : Bool) (ts : Option Int) (spec : List Script)
    (s : SchedState) (w : Nat) (hw : s.workers.length ≤ w) :
    stepWorker rp ts spec s w = s := by
  unfold stepWorker
  rw [List.getD_eq_default _ _ hw]

theorem stepWorker_exited (rp : Bool) (ts : Option Int) (spec : List Script)
    (s : SchedState) (w : Nat) (hw : w < s.workers.length)
    (hst : s.workers[w] = WStatus.exited) :
    stepWorker rp ts spec s w = s := by
  unfold stepWorker
  rw [List.getD_eq_getElem _ _ hw, hst]

theorem stepWorker_failed (rp : Bool) (ts : Option Int) (spec : List Script)
    (s : SchedState) (w : Nat) (hw : w < s.workers.length)
    (hst : s.workers[w] = WStatus.failed) :
    stepWorker rp ts spec s w = s := by
  unfold stepWorker
  rw [List.getD_eq_getElem _ _ hw, hst]

theorem stepWorker_deliver (rp : Bool) (ts : Option Int) (spec : List Script)
    (s : SchedState) (w : Nat) (hw : w < s.workers.length) (i : Nat)
    (e : Nat × Nat) (rest : List (Nat × Nat)) (out : Option (List Nat))
    (hst : s.workers[w] = WStatus.fetching i ⟨e :: rest, out⟩) :
    stepWorker rp ts spec s w =
      { s with
          tasks := s.tasks.set i
            { s.tasks.getD i dummyTask with sizeTotal := e.2, sizeLoaded := e.1 }
          workers := s.workers.set w (WStatus.fetching i ⟨rest, out⟩)
          deliveredEvents := s.deliveredEvents ++ [(i, e.1, e.2)]
          invocations :=
            if rp then
              s.invocations ++
                [(sumArr ((s.tasks.set i
                    { s.tasks.getD i dummyTask with
                        sizeTotal := e.2, sizeLoaded := e.1 }).map Task.sizeLoaded), ts)]
            else s.invocations } := by
  unfold stepWorker
  rw [List.getD_eq_getElem _ _ hw, hst]

theorem stepWorker_settle_ok (rp : Bool) (ts : Option Int) (spec : List Script)
    (s : SchedState) (w : Nat) (hw : w < s.workers.length) (i : Nat)
    (bytes : List Nat)
    (hst : s.workers[w] = WStatus.fetching i ⟨[], some bytes⟩) :
    stepWorker rp ts spec s w =
      (let tasks' := s.tasks.set i { s.tasks.getD i dummyTask with result := bytes }
       let c := claimNext spec tasks' s.claimEvents
       { s with tasks := c.1, workers := s.workers.set w c.2.1, claimEvents := c.2.2 }) := by
  unfold stepWorker
  rw [List.getD_eq_getElem _ _ hw, hst]

theorem stepWorker_settle_fail (rp : Bool) (ts : Option Int) (spec : List Script)
    (s : SchedState) (w : Nat) (hw : w < s.workers.length) (i : Nat)
    (hst : s.workers[w] = WStatus.fetching i ⟨[], none⟩) :
    stepWorker rp ts spec s w =
      { s with workers := s.workers.set w WStatus.failed, rejected := true } := by
  unfold stepWorker
  rw [List.getD_eq_getElem _ _ hw, hst]

theorem getElem_append_singleton_cases {α : Type} (ws : List α) (st : α) (w : Nat)
    (hw : w < (ws ++ [st]).length) :
    (∃ hlt : w < ws.length, (ws ++ [st])[w] = ws[w]) ∨ (w = ws.length ∧ (ws ++ [st])[w] = st) := by
  by_cases hlt : w < ws.length
  · exact Or.inl ⟨hlt, List.getElem_append_left hlt⟩
  · have heq : w = ws.length := by
      have := hw
      simp only [List.length_append, List.length_singleton] at this
      omega
    subst heq
    exact Or.inr ⟨rfl, by simp⟩

theorem getElem_set_cases {α : Type} (ws : List α) (w : Nat) (hw : w < ws.length)
    (st : α) (v : Nat) (hv : v < (ws.set w st).length) :
    (v = w ∧ (ws.set w st)[v] = st) ∨
      (v ≠ w ∧ ∃ hv' : v < ws.length, (ws.set w st)[v] = ws[v]) := by
  by_cases hvw : v = w
  · subst hvw
    exact Or.inl ⟨rfl, List.getElem_set_self hv⟩
  · exact Or.inr ⟨hvw, by simpa using hv, List.getElem_set_ne (fun h => hvw h.symm) _⟩

theorem noWorkerOn_append_singleton (ws : List WStatus) (st : WStatus) (i : Nat)
    (h : NoWorkerOn ws i) (hst : ∀ sc, st ≠ WStatus.fetching i sc) :
    NoWorkerOn (ws ++ [st]) i := by
  intro w hw sc
  rcases getElem_append_singleton_cases ws st w hw with ⟨hlt, heq⟩ | ⟨_, heq⟩
  · rw [heq]; exact h w hlt sc
  · rw [heq]; exact hst sc

theorem noWorkerOn_set (ws : List WStatus) (w : Nat) (hw : w < ws.length) (st : WStatus)
    (i : Nat) (h : NoWorkerOn ws i) (hst : ∀ sc, st ≠ WStatus.fetching i sc) :
    NoWorkerOn (ws.set w st) i := by
  intro v hv sc
  rcases getElem_set_cases ws w hw st v hv with ⟨_, heq⟩ | ⟨_, hv', heq⟩
  · rw [heq]; exact hst sc
  · rw [heq]; exact h v hv' sc

/-- When the claimed tasks form a proper prefix, the claim step claims
exactly the next index: the least index whose `started` flag is false. -/
theorem claimNext_of_lt (spec : List Script) (tasks : List Task) (claims : List Nat)
    (hpre : ∀ (i : Nat) (hi : i < tasks.length), (tasks[i].started = true ↔ i < claims.length))
    (hk : claims.length < tasks.length) :
    claimNext spec tasks claims =
      (tasks.set claims.length { tasks.getD claims.length dummyTask with started := true },
       WStatus.fetching claims.length (scriptOf spec claims.length),
       claims ++ [claims.length]) := by
  unfold claimNext
  rw [firstUnstarted_spec tasks claims.length hpre, if_pos hk]

theorem claimNext_of_ge (spec : List Script) (tasks : List Task) (claims : List Nat)
    (hpre : ∀ (i : Nat) (hi : i < tasks.length), (tasks[i].started = true ↔ i < claims.length))
    (hk : ¬ claims.length < tasks.length) :
    claimNext spec tasks claims = (tasks, WStatus.exited, claims) := by
  unfold claimNext
  rw [firstUnstarted_spec tasks claims.length hpre, if_neg hk]

theorem fetching_ne (j i : Nat) (scj : Script) (hne : j ≠ i) (sc : Script) :
    WStatus.fetching j scj ≠ WStatus.fetching i sc := by
  intro h
  injection h with h1 _
  exact hne h1

/-- A task whose registry entry, event history and (if any) owning worker
are untouched by a step keeps its phase. -/
theorem TaskPhase_untouched (spec : List Script) (s s' : SchedState) (i : Nat)
    (hi : i < s.tasks.length) (hi' : i < s'.tasks.length)
    (hp : TaskPhase spec s i hi)
    (htask : s'.tasks[i] = s.tasks[i])
    (hhist : historyFor s'.deliveredEvents i = historyFor s.deliveredEvents i)
    (hrejmono : s.rejected = true → s'.rejected = true)
    (hworkers : ∀ (v : Nat) (hv : v < s.workers.length) (sc : Script),
      s.workers[v] = WStatus.fetching i sc →
        ∃ (v' : Nat) (hv' : v' < s'.workers.length), s'.workers[v'] = WStatus.fetching i sc)
    (hnw : NoWorkerOn s.workers i → NoWorkerOn s'.workers i) :
    TaskPhase spec s' i hi' := by
  rcases hp with ⟨h1, h2, h3, h4⟩ | ⟨h1, h2, w, hw, k, hweq, hhisteq⟩ | ⟨h1, h2, h3, h4⟩
  · exact Or.inl ⟨by rw [htask]; exact h1, by rw [htask]; exact h2, hnw h3, by rw [hhist]; exact h4⟩
  · obtain ⟨v, hv, hveq⟩ := hworkers w hw _ hweq
    exact Or.inr (Or.inl ⟨by rw [htask]; exact h1, by rw [htask]; exact h2, v, hv, k,
      hveq, by rw [hhist]; exact hhisteq⟩)
  · refine Or.inr (Or.inr ⟨by rw [htask]; exact h1, hnw h2, by rw [hhist]; exact h3, ?_⟩)
    cases hout : (scriptOf spec i).outcome with
    | some b =>
        rw [hout] at h4
        simpa [htask] using h4
    | none =>
        rw [hout] at h4
        exact ⟨by rw [htask]; exact h4.1, hrejmono h4.2⟩

/-- Spawning one worker preserves the invariant. -/
theorem spawnOne_inv (rp : Bool) (ts : Option Int) (spec : List Script) (n : Nat)
    (s : SchedState) (hInv : Inv rp ts spec n s) : Inv rp ts spec n (spawnOne spec s) := by
  obtain ⟨htlen, hstarted, hclaims, hclaimsle, hwbound, huniq, hrej, hexited, hphase, hsize,
    hev, hinvocs⟩ := hInv
  by_cases hk : s.claimEvents.length < s.tasks.length
  · -- a task is available: the new worker claims index claimEvents.length
    have hkn : s.claimEvents.length < n := htlen ▸ hk
    have hs' : spawnOne spec s =
        { s with
            tasks := s.tasks.set s.claimEvents.length
              { s.tasks.getD s.claimEvents.length dummyTask with started := true }
            workers := s.workers ++
              [WStatus.fetching s.claimEvents.length (scriptOf spec s.claimEvents.length)]
            claimEvents := s.claimEvents ++ [s.claimEvents.length] } := by
      unfold spawnOne
      rw [claimNext_of_lt spec s.tasks s.claimEvents hstarted hk]
    have hks : s.tasks[s.claimEvents.length].started = false := by
      cases hb : s.tasks[s.claimEvents.length].started
      · rfl
      · exact absurd ((hstarted _ hk).mp hb) (by omega)
    have hUncl : s.tasks[s.claimEvents.length].result = [] ∧
        NoWorkerOn s.workers s.claimEvents.length ∧
        historyFor s.deliveredEvents s.claimEvents.length = [] := by
      rcases hphase s.claimEvents.length hk with ⟨_, h2, h3, h4⟩ | ⟨h1, _⟩ | ⟨h1, _⟩
      · exact ⟨h2, h3, h4⟩
      · rw [hks] at h1; exact absurd h1 (by simp)
      · rw [hks] at h1; exact absurd h1 (by simp)
    obtain ⟨hres, hnw, hhist⟩ := hUncl
    have hgetD : s.tasks.getD s.claimEvents.length dummyTask = s.tasks[s.claimEvents.length] :=
      List.getD_eq_getElem _ _ hk
    rw [hs']
    refine ⟨?_, ?_, ?_, ?_, ?_, ?_, ?_, ?_, ?_, ?_, ?_, ?_⟩
    · -- tlen
      dsimp only
      simpa using htlen
    · -- started_iff
      dsimp only
      intro i hi
      rcases getElem_set_cases s.tasks s.claimEvents.length hk _ i hi with
        ⟨heq, hget⟩ | ⟨hne, hi', hget⟩
      · rw [hget]
        simp only [List.length_append, List.length_singleton]
        simp [heq]
      · rw [hget]
        have hold := hstarted i hi'
        simp only [List.length_append, List.length_singleton]
        constructor
        · intro h
          have := hold.mp h
          omega
        · intro h
          exact hold.mpr (by omega)
    · -- claims_eq
      dsimp only
      simp only [List.length_append, List.length_singleton]
      rw [List.range_succ, ← hclaims]
    · -- claims_le
      dsimp only
      simp only [List.length_append, List.length_singleton]
      omega
    · -- wbound
      dsimp only
      intro w hw i sc hfetch
      rcases getElem_append_singleton_cases _ _ w hw with ⟨hlt, heq⟩ | ⟨_, heq⟩
      · rw [heq] at hfetch
        have := hwbound w hlt i sc hfetch
        simpa using this
      · rw [heq] at hfetch
        injection hfetch with h1 _
        simp only [List.length_set]
        omega
    · -- uniq
      dsimp only
      intro w1 w2 h1 h2 i sc1 sc2 hf1 hf2
      rcases getElem_append_singleton_cases _ _ w1 h1 with ⟨hlt1, heq1⟩ | ⟨he1, heq1⟩ <;>
        rcases getElem_append_singleton_cases _ _ w2 h2 with ⟨hlt2, heq2⟩ | ⟨he2, heq2⟩
      · rw [heq1] at hf1
        rw [heq2] at hf2
        exact huniq w1 w2 hlt1 hlt2 i sc1 sc2 hf1 hf2
      · rw [heq1] at hf1
        rw [heq2] at hf2
        injection hf2 with hki _
        subst hki
        exact absurd hf1 (hnw w1 hlt1 sc1)
      · rw [heq1] at hf1
        rw [heq2] at hf2
        injection hf1 with hki _
        subst hki
        exact absurd hf2 (hnw w2 hlt2 sc2)
      · omega
    · -- rej_iff
      dsimp only
      have hiff := exists_getElem_append_singleton s.workers
        (WStatus.fetching s.claimEvents.length (scriptOf spec s.claimEvents.length))
        (fun x => x = WStatus.failed)
      refine hrej.trans ?_
      constructor
      · intro h
        exact hiff.mpr (Or.inl h)
      · intro h
        exact (hiff.mp h).resolve_right (by simp)
    · -- exited_full
      dsimp only
      intro w hw hex
      rcases getElem_append_singleton_cases _ _ w hw with ⟨hlt, heq⟩ | ⟨_, heq⟩
      · rw [heq] at hex
        have := hexited w hlt hex
        simp only [List.length_append, List.length_singleton]
        omega
      · rw [heq] at hex
        exact absurd hex (by simp)
    · -- phase
      intro i hi
      have hi0 : i < (s.tasks.set s.claimEvents.length
          { s.tasks.getD s.claimEvents.length dummyTask with started := true }).length := by
        simpa using hi
      by_cases hik : i = s.claimEvents.length
      · -- the newly claimed task becomes active with zero delivered events
        have hget : (s.tasks.set s.claimEvents.length
            { s.tasks.getD s.claimEvents.length dummyTask with started := true })[i] =
            { s.tasks.getD s.claimEvents.length dummyTask with started := true } := by
          subst hik
          exact List.getElem_set_self hi0
        refine Or.inr (Or.inl ⟨?_, ?_, s.workers.length, by simp, 0, ?_, ?_⟩)
        · show (s.tasks.set s.claimEvents.length
            { s.tasks.getD s.claimEvents.length dummyTask with started := true })[i].started = true
          rw [hget]
        · show (s.tasks.set s.claimEvents.length
            { s.tasks.getD s.claimEvents.length dummyTask with started := true })[i].result = []
          rw [hget]
          show (s.tasks.getD s.claimEvents.length dummyTask).result = []
          rw [hgetD]
          exact hres
        · subst hik
          dsimp only
          have hconc : (s.workers ++ [WStatus.fetching s.claimEvents.length
              (scriptOf spec s.claimEvents.length)])[s.workers.length] =
              WStatus.fetching s.claimEvents.length (scriptOf spec s.claimEvents.length) := by
            simp
          rw [hconc, List.drop_zero]
        · show historyFor s.deliveredEvents i = (scriptOf spec i).events.take 0
          subst hik
          simpa using hhist
      · refine TaskPhase_untouched spec s _ i (by simpa using hi0) hi
          (hphase i (by simpa using hi0)) ?_ rfl (fun h => h) ?_ ?_
        · have his : i < s.tasks.length := by simpa using hi0
          show (s.tasks.set s.claimEvents.length
            { s.tasks.getD s.claimEvents.length dummyTask with started := true })[i] = s.tasks[i]
          exact List.getElem_set_ne (fun h => hik h.symm) _
        · intro v hv sc hf
          refine ⟨v, by simp; omega, ?_⟩
          rw [List.getElem_append_left hv]
          exact hf
        · intro h
          exact noWorkerOn_append_singleton _ _ _ h
            (fetching_ne _ _ _ (fun hcontra => hik hcontra.symm))
    · -- size_inv
      dsimp only
      intro i hi
      rcases getElem_set_cases s.tasks s.claimEvents.length hk _ i hi with
        ⟨heq, hget⟩ | ⟨hne, hi', hget⟩
      · rw [hget, heq]
        show (s.tasks.getD s.claimEvents.length dummyTask).sizeLoaded = _
        rw [hgetD]
        exact hsize s.claimEvents.length hk
      · rw [hget]
        exact hsize i hi'
    · -- ev_bound
      dsimp only
      exact hev
    · -- inv_eq
      dsimp only
      exact hinvocs
  · -- no unstarted task: the new worker exits immediately
    have hs' : spawnOne spec s = { s with workers := s.workers ++ [WStatus.exited] } := by
      unfold spawnOne
      rw [claimNext_of_ge spec s.tasks s.claimEvents hstarted hk]
    rw [hs']
    refine ⟨htlen, hstarted, hclaims, hclaimsle, ?_, ?_, ?_, ?_, ?_, hsize, hev, hinvocs⟩
    · -- wbound
      dsimp only
      intro w hw i sc hfetch
      rcases getElem_append_singleton_cases _ _ w hw with ⟨hlt, heq⟩ | ⟨_, heq⟩
      · rw [heq] at hfetch
        exact hwbound w hlt i sc hfetch
      · rw [heq] at hfetch
        exact absurd hfetch (by simp)
    · -- uniq
      dsimp only
      intro w1 w2 h1 h2 i sc1 sc2 hf1 hf2
      rcases getElem_append_singleton_cases _ _ w1 h1 with ⟨hlt1, heq1⟩ | ⟨he1, heq1⟩ <;>
        rcases getElem_append_singleton_cases _ _ w2 h2 with ⟨hlt2, heq2⟩ | ⟨he2, heq2⟩
      · rw [heq1] at hf1
        rw [heq2] at hf2
        exact huniq w1 w2 hlt1 hlt2 i sc1 sc2 hf1 hf2
      · rw [heq2] at hf2
        exact absurd hf2 (by simp)
      · rw [heq1] at hf1
        exact absurd hf1 (by simp)
      · omega
    · -- rej_iff
      dsimp only
      have hiff := exists_getElem_append_singleton s.workers WStatus.exited
        (fun x => x = WStatus.failed)
      refine hrej.trans ?_
      constructor
      · intro h
        exact hiff.mpr (Or.inl h)
      · intro h
        exact (hiff.mp h).resolve_right (by simp)
    · -- exited_full
      dsimp only
      intro w hw hex
      rcases getElem_append_singleton_cases _ _ w hw with ⟨hlt, heq⟩ | ⟨_, heq⟩
      · rw [heq] at hex
        exact hexited w hlt hex
      · omega
    · -- phase
      intro i hi
      refine TaskPhase_untouched spec s _ i (by simpa using hi) hi (hphase i _) rfl rfl
        (fun h => h) ?_ ?_
      · intro v hv sc hf
        refine ⟨v, by simp; omega, ?_⟩
        rw [List.getElem_append_left hv]
        exact hf
      · intro h
        exact noWorkerOn_append_singleton _ _ _ h (by simp)



set_option maxHeartbeats 1000000 in
/-- One event-loop step preserves the invariant. -/
theorem stepWorker_inv (rp : Bool) (ts : Option Int) (spec : List Script) (n : Nat)
    (s : SchedState) (w : Nat) (hInv : Inv rp ts spec n s) :
    Inv rp ts spec n (stepWorker rp ts spec s w) := by
  by_cases hw : w < s.workers.length
  · obtain ⟨htlen, hstarted, hclaims, hclaimsle, hwbound, huniq, hrej, hexited, hphase, hsize,
      hev, hinvocs⟩ := hInv
    cases hst : s.workers[w] with
    | exited =>
        rw [stepWorker_exited rp ts spec s w hw hst]
        exact ⟨htlen, hstarted, hclaims, hclaimsle, hwbound, huniq, hrej, hexited, hphase,
          hsize, hev, hinvocs⟩
    | failed =>
        rw [stepWorker_failed rp ts spec s w hw hst]
        exact ⟨htlen, hstarted, hclaims, hclaimsle, hwbound, huniq, hrej, hexited, hphase,
          hsize, hev, hinvocs⟩
    | fetching i sc =>
        have hin : i < s.tasks.length := hwbound w hw i sc hst
        have hinn : i < n := htlen ▸ hin
        have hActive : s.tasks[i].started = true ∧ s.tasks[i].result = [] ∧
            ∃ k, sc = ⟨(scriptOf spec i).events.drop k, (scriptOf spec i).outcome⟩ ∧
              historyFor s.deliveredEvents i = (scriptOf spec i).events.take k := by
          rcases hphase i hin with ⟨h1, h2, h3, h4⟩ | ⟨h1, h2, w', hw', k, hweq, hhisteq⟩ |
            ⟨h1, h2, h3, h4⟩
          · exact absurd hst (h3 w hw sc)
          · have hww : w' = w := huniq w' w hw' hw i _ sc hweq hst
            subst hww
            rw [hst] at hweq
            injection hweq with _ hsc
            exact ⟨h1, h2, k, hsc, hhisteq⟩
          · exact absurd hst (h2 w hw sc)
        obtain ⟨hstart_i, hres_i, k, hsc, hhist_i⟩ := hActive
        -- any other worker on task i would be w itself
        have honly : ∀ (v : Nat) (hv : v < s.workers.length) (sc' : Script),
            s.workers[v] = WStatus.fetching i sc' → v = w := by
          intro v hv sc' hf
          exact huniq v w hv hw i sc' sc hf hst
        rcases hdrop : (scriptOf spec i).events.drop k with _ | ⟨e, rest⟩
        · -- no pending events: the fetch settles
          have hk_ge : (scriptOf spec i).events.length ≤ k := by
            by_contra hlt
            have hklt0 : k < (scriptOf spec i).events.length := by omega
            have hcontra := List.drop_eq_getElem_cons hklt0
            rw [hdrop] at hcontra
            exact List.noConfusion hcontra
          have htake : (scriptOf spec i).events.take k = (scriptOf spec i).events :=
            List.take_of_length_le hk_ge
          rw [htake] at hhist_i
          cases hout : (scriptOf spec i).outcome with
          | some bytes =>
              have hst' : s.workers[w] = WStatus.fetching i ⟨[], some bytes⟩ := by
                rw [hst, hsc, hdrop, hout]
              rw [stepWorker_settle_ok rp ts spec s w hw i bytes hst']
              have hgetD_i : s.tasks.getD i dummyTask = s.tasks[i] :=
                List.getD_eq_getElem _ _ hin
              have hic : i < s.claimEvents.length := (hstarted i hin).mp hstart_i
              have hstarted₁ : ∀ (j : Nat) (hj : j < (s.tasks.set i
                  { s.tasks.getD i dummyTask with result := bytes }).length),
                  ((s.tasks.set i { s.tasks.getD i dummyTask with result := bytes })[j].started =
                    true ↔ j < s.claimEvents.length) := by
                intro j hj
                rcases getElem_set_cases s.tasks i hin _ j hj with ⟨heq, hget⟩ | ⟨hne, hj', hget⟩
                · rw [hget, heq]
                  show (s.tasks.getD i dummyTask).started = true ↔ _
                  rw [hgetD_i]
                  exact hstarted i hin
                · rw [hget]
                  exact hstarted j hj'
              show Inv rp ts spec n
                { s with
                    tasks := (claimNext spec (s.tasks.set i
                      { s.tasks.getD i dummyTask with result := bytes }) s.claimEvents).1
                    workers := s.workers.set w (claimNext spec (s.tasks.set i
                      { s.tasks.getD i dummyTask with result := bytes }) s.claimEvents).2.1
                    claimEvents := (claimNext spec (s.tasks.set i
                      { s.tasks.getD i dummyTask with result := bytes }) s.claimEvents).2.2 }
              by_cases hkc : s.claimEvents.length <
                  (s.tasks.set i { s.tasks.getD i dummyTask with result := bytes }).length
              · -- the worker synchronously claims the next unstarted task
                rw [claimNext_of_lt spec _ s.claimEvents hstarted₁ hkc]
                have hclt : s.claimEvents.length < s.tasks.length := by simpa using hkc
                have hcln : s.claimEvents.length < n := htlen ▸ hclt
                have hclt1 : s.claimEvents.length < (s.tasks.set i
                    { s.tasks.getD i dummyTask with result := bytes }).length := hkc
                have hcs : s.tasks[s.claimEvents.length].started = false := by
                  cases hb : s.tasks[s.claimEvents.length].started
                  · rfl
                  · exact absurd ((hstarted _ hclt).mp hb) (by omega)
                have hic_ne : i ≠ s.claimEvents.length := by omega
                have hUnclC : s.tasks[s.claimEvents.length].result = [] ∧
                    NoWorkerOn s.workers s.claimEvents.length ∧
                    historyFor s.deliveredEvents s.claimEvents.length = [] := by
                  rcases hphase s.claimEvents.length hclt with ⟨_, h2, h3, h4⟩ | ⟨h1, _⟩ | ⟨h1, _⟩
                  · exact ⟨h2, h3, h4⟩
                  · rw [hcs] at h1; exact absurd h1 (by simp)
                  · rw [hcs] at h1; exact absurd h1 (by simp)
                obtain ⟨hres_c, hnw_c, hhist_c⟩ := hUnclC
                have hT1c : (s.tasks.set i
                    { s.tasks.getD i dummyTask with result := bytes })[s.claimEvents.length] =
                    s.tasks[s.claimEvents.length] := List.getElem_set_ne hic_ne _
                have hgetD_c : (s.tasks.set i
                    { s.tasks.getD i dummyTask with result := bytes }).getD
                      s.claimEvents.length dummyTask = s.tasks[s.claimEvents.length] := by
                  rw [List.getD_eq_getElem _ _ hclt1]
                  exact hT1c
                refine ⟨?_, ?_, ?_, ?_, ?_, ?_, ?_, ?_, ?_, ?_, ?_, ?_⟩
                · -- tlen
                  dsimp only
                  simpa using htlen
                · -- started_iff
                  dsimp only
                  intro j hj
                  rcases getElem_set_cases (s.tasks.set i
                      { s.tasks.getD i dummyTask with result := bytes })
                      s.claimEvents.length hclt1 _ j hj with ⟨heq, hget⟩ | ⟨hne, hj', hget⟩
                  · rw [hget]
                    simp only [List.length_append, List.length_singleton]
                    simp [heq]
                  · rw [hget]
                    have hold := hstarted₁ j hj'
                    simp only [List.length_append, List.length_singleton]
                    constructor
                    · intro h
                      have := hold.mp h
                      omega
                    · intro h
                      exact hold.mpr (by omega)
                · -- claims_eq
                  dsimp only
                  simp only [List.length_append, List.length_singleton]
                  rw [List.range_succ, ← hclaims]
                · -- claims_le
                  dsimp only
                  simp only [List.length_append, List.length_singleton]
                  omega
                · -- wbound
                  dsimp only
                  intro v hv j sc' hf
                  rcases getElem_set_cases s.workers w hw _ v hv with
                    ⟨heq, hget⟩ | ⟨hne, hv', hget⟩
                  · rw [hget] at hf
                    injection hf with hj _
                    simp only [List.length_set]
                    omega
                  · rw [hget] at hf
                    have := hwbound v hv' j sc' hf
                    simpa using this
                · -- uniq
                  dsimp only
                  intro v1 v2 h1 h2 j sc1 sc2 hf1 hf2
                  rcases getElem_set_cases s.workers w hw _ v1 h1 with
                    ⟨heq1, hget1⟩ | ⟨hne1, h1', hget1⟩ <;>
                    rcases getElem_set_cases s.workers w hw _ v2 h2 with
                      ⟨heq2, hget2⟩ | ⟨hne2, h2', hget2⟩
                  · omega
                  · rw [hget1] at hf1
                    rw [hget2] at hf2
                    injection hf1 with hj _
                    subst hj
                    exact absurd hf2 (hnw_c v2 h2' sc2)
                  · rw [hget1] at hf1
                    rw [hget2] at hf2
                    injection hf2 with hj _
                    subst hj
                    exact absurd hf1 (hnw_c v1 h1' sc1)
                  · rw [hget1] at hf1
                    rw [hget2] at hf2
                    exact huniq v1 v2 h1' h2' j sc1 sc2 hf1 hf2
                · -- rej_iff
                  dsimp only
                  refine hrej.trans (Iff.symm ?_)
                  refine exists_getElem_set_iff s.workers w hw _
                    (fun x => x = WStatus.failed) ?_ ?_
                  · rw [hst]
                    simp
                  · simp
                · -- exited_full
                  dsimp only
                  intro v hv hex
                  rcases getElem_set_cases s.workers w hw _ v hv with
                    ⟨heq, hget⟩ | ⟨hne, hv', hget⟩
                  · rw [hget] at hex
                    exact absurd hex (by simp)
                  · rw [hget] at hex
                    have := hexited v hv' hex
                    simp only [List.length_append, List.length_singleton]
                    omega
                · -- phase
                  intro j hj
                  have hjs : j < s.tasks.length := by simpa using hj
                  by_cases hji : j = i
                  · -- the settled task
                    have hij : i = j := hji.symm
                    subst hij
                    have hi2 : i < ((s.tasks.set i
                        { s.tasks.getD i dummyTask with result := bytes }).set
                          s.claimEvents.length
                          { (s.tasks.set i { s.tasks.getD i dummyTask with result := bytes }).getD
                              s.claimEvents.length dummyTask with started := true }).length := by
                      simpa using hjs
                    have hT2i : ((s.tasks.set i
                        { s.tasks.getD i dummyTask with result := bytes }).set
                          s.claimEvents.length
                          { (s.tasks.set i { s.tasks.getD i dummyTask with result := bytes }).getD
                              s.claimEvents.length dummyTask with started := true })[i] =
                        { s.tasks.getD i dummyTask with result := bytes } := by
                      rw [List.getElem_set_ne (fun h => hic_ne h.symm) _]
                      exact List.getElem_set_self (by simpa using hin)
                    refine Or.inr (Or.inr ⟨?_, ?_, hhist_i, ?_⟩)
                    · show ((s.tasks.set i
                        { s.tasks.getD i dummyTask with result := bytes }).set
                          s.claimEvents.length
                          { (s.tasks.set i { s.tasks.getD i dummyTask with result := bytes }).getD
                              s.claimEvents.length dummyTask with started := true })[i].started =
                        true
                      rw [hT2i]
                      show (s.tasks.getD i dummyTask).started = true
                      rw [hgetD_i]
                      exact hstart_i
                    · intro v hv sc'
                      rcases getElem_set_cases s.workers w hw _ v hv with
                        ⟨heq, hget⟩ | ⟨hne, hv', hget⟩
                      · rw [hget]
                        exact fetching_ne _ _ _ (fun h => hic_ne h.symm) sc'
                      · rw [hget]
                        intro hf
                        exact hne (honly v hv' sc' hf)
                    · rw [hout]
                      show ((s.tasks.set i
                        { s.tasks.getD i dummyTask with result := bytes }).set
                          s.claimEvents.length
                          { (s.tasks.set i { s.tasks.getD i dummyTask with result := bytes }).getD
                              s.claimEvents.length dummyTask with started := true })[i].result =
                        bytes
                      rw [hT2i]
                  · by_cases hjc : j = s.claimEvents.length
                    · -- the newly claimed task
                      have hcj : s.claimEvents.length = j := hjc.symm
                      subst hcj
                      have hj2 : s.claimEvents.length < ((s.tasks.set i
                          { s.tasks.getD i dummyTask with result := bytes }).set
                            s.claimEvents.length
                            { (s.tasks.set i
                                { s.tasks.getD i dummyTask with result := bytes }).getD
                                s.claimEvents.length dummyTask with started := true }).length := by
                        simpa using hjs
                      have hT2c : ((s.tasks.set i
                          { s.tasks.getD i dummyTask with result := bytes }).set
                            s.claimEvents.length
                            { (s.tasks.set i
                                { s.tasks.getD i dummyTask with result := bytes }).getD
                                s.claimEvents.length dummyTask with started := true })[s.claimEvents.length] =
                          { (s.tasks.set i
                              { s.tasks.getD i dummyTask with result := bytes }).getD
                              s.claimEvents.length dummyTask with started := true } :=
                        List.getElem_set_self hj2
                      refine Or.inr (Or.inl ⟨?_, ?_, w, by simpa using hw, 0, ?_, ?_⟩)
                      · show ((s.tasks.set i
                          { s.tasks.getD i dummyTask with result := bytes }).set
                            s.claimEvents.length
                            { (s.tasks.set i
                                { s.tasks.getD i dummyTask with result := bytes }).getD
                                s.claimEvents.length dummyTask with started := true })[s.claimEvents.length].started = true
                        rw [hT2c]
                      · show ((s.tasks.set i
                          { s.tasks.getD i dummyTask with result := bytes }).set
                            s.claimEvents.length
                            { (s.tasks.set i
                                { s.tasks.getD i dummyTask with result := bytes }).getD
                                s.claimEvents.length dummyTask with started := true })[s.claimEvents.length].result = []
                        rw [hT2c]
                        show ((s.tasks.set i
                            { s.tasks.getD i dummyTask with result := bytes }).getD
                            s.claimEvents.length dummyTask).result = []
                        rw [hgetD_c]
                        exact hres_c
                      · have hw2 : w < (s.workers.set w (WStatus.fetching s.claimEvents.length
                            (scriptOf spec s.claimEvents.length))).length := by
                          simpa using hw
                        show (s.workers.set w (WStatus.fetching s.claimEvents.length
                            (scriptOf spec s.claimEvents.length)))[w] =
                          WStatus.fetching s.claimEvents.length
                            ⟨(scriptOf spec s.claimEvents.length).events.drop 0,
                              (scriptOf spec s.claimEvents.length).outcome⟩
                        rw [List.getElem_set_self hw2, List.drop_zero]
                      · show historyFor s.deliveredEvents s.claimEvents.length =
                          (scriptOf spec s.claimEvents.length).events.take 0
                        simpa using hhist_c
                    · -- untouched task
                      refine TaskPhase_untouched spec s _ j hjs hj (hphase j hjs) ?_ rfl
                        (fun h => h) ?_ ?_
                      · show ((s.tasks.set i
                          { s.tasks.getD i dummyTask with result := bytes }).set
                            s.claimEvents.length
                            { (s.tasks.set i
                                { s.tasks.getD i dummyTask with result := bytes }).getD
                                s.claimEvents.length dummyTask with started := true })[j] =
                          s.tasks[j]
                        rw [List.getElem_set_ne (fun h => hjc h.symm) _,
                          List.getElem_set_ne (fun h => hji h.symm) _]
                      · intro v hv sc' hf
                        have hvw : v ≠ w := by
                          intro hcontra
                          subst hcontra
                          rw [hst] at hf
                          injection hf with hij _
                          exact hji hij.symm
                        have hv2 : v < (s.workers.set w (WStatus.fetching s.claimEvents.length
                            (scriptOf spec s.claimEvents.length))).length := by
                          simpa using hv
                        refine ⟨v, hv2, ?_⟩
                        show (s.workers.set w (WStatus.fetching s.claimEvents.length
                            (scriptOf spec s.claimEvents.length)))[v] = WStatus.fetching j sc'
                        rw [List.getElem_set_ne (fun h => hvw h.symm) _]
                        exact hf
                      · intro h
                        exact noWorkerOn_set s.workers w hw _ j h
                          (fetching_ne _ _ _ (fun hcontra => hjc hcontra.symm))
                · -- size_inv
                  dsimp only
                  intro j hj
                  rcases getElem_set_cases (s.tasks.set i
                      { s.tasks.getD i dummyTask with result := bytes })
                      s.claimEvents.length hclt1 _ j hj with ⟨heq, hget⟩ | ⟨hne, hj', hget⟩
                  · rw [hget, heq]
                    show ((s.tasks.set i
                        { s.tasks.getD i dummyTask with result := bytes }).getD
                        s.claimEvents.length dummyTask).sizeLoaded = _
                    rw [hgetD_c]
                    exact hsize s.claimEvents.length hclt
                  · rw [hget]
                    rcases getElem_set_cases s.tasks i hin _ j hj' with
                      ⟨heq2, hget2⟩ | ⟨hne2, hj2', hget2⟩
                    · rw [hget2, heq2]
                      show (s.tasks.getD i dummyTask).sizeLoaded = _
                      rw [hgetD_i]
                      exact hsize i hin
                    · rw [hget2]
                      exact hsize j hj2'
                · -- ev_bound
                  dsimp only
                  exact hev
                · -- inv_eq
                  dsimp only
                  exact hinvocs
              · -- all tasks claimed: the worker returns
                rw [claimNext_of_ge spec _ s.claimEvents hstarted₁ hkc]
                have hceq : s.claimEvents.length = n := by
                  have : s.tasks.length ≤ s.claimEvents.length := by simpa using hkc
                  omega
                refine ⟨?_, hstarted₁, hclaims, hclaimsle, ?_, ?_, ?_, ?_, ?_, ?_, hev, hinvocs⟩
                · -- tlen
                  dsimp only
                  simpa using htlen
                · -- wbound
                  dsimp only
                  intro v hv j sc' hf
                  rcases getElem_set_cases s.workers w hw _ v hv with
                    ⟨heq, hget⟩ | ⟨hne, hv', hget⟩
                  · rw [hget] at hf
                    exact absurd hf (by simp)
                  · rw [hget] at hf
                    have := hwbound v hv' j sc' hf
                    simpa using this
                · -- uniq
                  dsimp only
                  intro v1 v2 h1 h2 j sc1 sc2 hf1 hf2
                  rcases getElem_set_cases s.workers w hw _ v1 h1 with
                    ⟨heq1, hget1⟩ | ⟨hne1, h1', hget1⟩ <;>
                    rcases getElem_set_cases s.workers w hw _ v2 h2 with
                      ⟨heq2, hget2⟩ | ⟨hne2, h2', hget2⟩
                  · omega
                  · rw [hget1] at hf1
                    exact absurd hf1 (by simp)
                  · rw [hget2] at hf2
                    exact absurd hf2 (by simp)
                  · rw [hget1] at hf1
                    rw [hget2] at hf2
                    exact huniq v1 v2 h1' h2' j sc1 sc2 hf1 hf2
                · -- rej_iff
                  dsimp only
                  refine hrej.trans (Iff.symm ?_)
                  refine exists_getElem_set_iff s.workers w hw _
                    (fun x => x = WStatus.failed) ?_ ?_
                  · rw [hst]
                    simp
                  · simp
                · -- exited_full
                  dsimp only
                  intro v hv hex
                  exact hceq
                · -- phase
                  intro j hj
                  have hjs : j < s.tasks.length := by simpa using hj
                  by_cases hji : j = i
                  · have hij : i = j := hji.symm
                    subst hij
                    have hT1i : (s.tasks.set i
                        { s.tasks.getD i dummyTask with result := bytes })[i] =
                        { s.tasks.getD i dummyTask with result := bytes} :=
                      List.getElem_set_self (by simpa using hjs)
                    refine Or.inr (Or.inr ⟨?_, ?_, hhist_i, ?_⟩)
                    · show (s.tasks.set i
                        { s.tasks.getD i dummyTask with result := bytes })[i].started = true
                      rw [hT1i]
                      show (s.tasks.getD i dummyTask).started = true
                      rw [hgetD_i]
                      exact hstart_i
                    · intro v hv sc'
                      rcases getElem_set_cases s.workers w hw _ v hv with
                        ⟨heq, hget⟩ | ⟨hne, hv', hget⟩
                      · rw [hget]
                        simp
                      · rw [hget]
                        intro hf
                        exact hne (honly v hv' sc' hf)
                    · rw [hout]
                      show (s.tasks.set i
                        { s.tasks.getD i dummyTask with result := bytes })[i].result = bytes
                      rw [hT1i]
                  · refine TaskPhase_untouched spec s _ j hjs hj (hphase j hjs) ?_ rfl
                      (fun h => h) ?_ ?_
                    · show (s.tasks.set i
                        { s.tasks.getD i dummyTask with result := bytes })[j] = s.tasks[j]
                      exact List.getElem_set_ne (fun h => hji h.symm) _
                    · intro v hv sc' hf
                      have hvw : v ≠ w := by
                        intro hcontra
                        subst hcontra
                        rw [hst] at hf
                        injection hf with hij _
                        exact hji hij.symm
                      have hv2 : v < (s.workers.set w WStatus.exited).length := by
                        simpa using hv
                      refine ⟨v, hv2, ?_⟩
                      show (s.workers.set w WStatus.exited)[v] = WStatus.fetching j sc'
                      rw [List.getElem_set_ne (fun h => hvw h.symm) _]
                      exact hf
                    · intro h
                      exact noWorkerOn_set s.workers w hw _ j h (by simp)
                · -- size_inv
                  dsimp only
                  intro j hj
                  rcases getElem_set_cases s.tasks i hin _ j hj with
                    ⟨heq, hget⟩ | ⟨hne, hj', hget⟩
                  · rw [hget, heq]
                    show (s.tasks.getD i dummyTask).sizeLoaded = _
                    rw [hgetD_i]
                    exact hsize i hin
                  · rw [hget]
                    exact hsize j hj'
          | none =>
              have hst' : s.workers[w] = WStatus.fetching i ⟨[], none⟩ := by
                rw [hst, hsc, hdrop, hout]
              rw [stepWorker_settle_fail rp ts spec s w hw i hst']
              refine ⟨htlen, hstarted, hclaims, hclaimsle, ?_, ?_, ?_, ?_, ?_, hsize, hev,
                hinvocs⟩
              · -- wbound
                dsimp only
                intro v hv j sc' hf
                rcases getElem_set_cases s.workers w hw _ v hv with ⟨heq, hget⟩ | ⟨hne, hv', hget⟩
                · rw [hget] at hf
                  exact absurd hf (by simp)
                · rw [hget] at hf
                  exact hwbound v hv' j sc' hf
              · -- uniq
                dsimp only
                intro v1 v2 h1 h2 j sc1 sc2 hf1 hf2
                rcases getElem_set_cases s.workers w hw _ v1 h1 with
                  ⟨heq1, hget1⟩ | ⟨hne1, h1', hget1⟩ <;>
                  rcases getElem_set_cases s.workers w hw _ v2 h2 with
                    ⟨heq2, hget2⟩ | ⟨hne2, h2', hget2⟩
                · omega
                · rw [hget1] at hf1
                  exact absurd hf1 (by simp)
                · rw [hget2] at hf2
                  exact absurd hf2 (by simp)
                · rw [hget1] at hf1
                  rw [hget2] at hf2
                  exact huniq v1 v2 h1' h2' j sc1 sc2 hf1 hf2
              · -- rej_iff
                dsimp only
                constructor
                · intro _
                  have hv : w < (s.workers.set w WStatus.failed).length := by simpa using hw
                  exact ⟨w, hv, List.getElem_set_self hv⟩
                · intro _
                  rfl
              · -- exited_full
                dsimp only
                intro v hv hex
                rcases getElem_set_cases s.workers w hw _ v hv with ⟨heq, hget⟩ | ⟨hne, hv', hget⟩
                · rw [hget] at hex
                  exact absurd hex (by simp)
                · rw [hget] at hex
                  exact hexited v hv' hex
              · -- phase
                intro j hj
                have hjs : j < s.tasks.length := by simpa using hj
                by_cases hji : j = i
                · have hij : i = j := hji.symm
                  subst hij
                  refine Or.inr (Or.inr ⟨hstart_i, ?_, hhist_i, ?_⟩)
                  · intro v hv sc'
                    rcases getElem_set_cases s.workers w hw _ v hv with
                      ⟨heq, hget⟩ | ⟨hne, hv', hget⟩
                    · rw [hget]
                      simp
                    · rw [hget]
                      intro hf
                      exact hne (honly v hv' sc' hf)
                  · rw [hout]
                    exact ⟨hres_i, rfl⟩
                · refine TaskPhase_untouched spec s _ j hjs hj (hphase j hjs) rfl rfl
                    (fun _ => rfl) ?_ ?_
                  · intro v hv sc' hf
                    have hvw : v ≠ w := by
                      intro hcontra
                      subst hcontra
                      rw [hst] at hf
                      injection hf with hij _
                      exact hji hij.symm
                    have hv2 : v < (s.workers.set w WStatus.failed).length := by simpa using hv
                    refine ⟨v, hv2, ?_⟩
                    show (s.workers.set w WStatus.failed)[v] = WStatus.fetching j sc'
                    rw [List.getElem_set_ne (fun h => hvw h.symm) _]
                    exact hf
                  · intro h
                    exact noWorkerOn_set s.workers w hw _ j h (by simp)
        · -- deliver the next progress event
          have hklt : k < (scriptOf spec i).events.length := by
            by_contra hge
            rw [List.drop_eq_nil_iff.mpr (by omega)] at hdrop
            exact absurd hdrop (by simp)
          have hcons := List.drop_eq_getElem_cons hklt
          rw [hdrop] at hcons
          injection hcons with he hrest
          have hst' : s.workers[w] = WStatus.fetching i ⟨e :: rest, (scriptOf spec i).outcome⟩ := by
            rw [hst, hsc, hdrop]
          rw [stepWorker_deliver rp ts spec s w hw i e rest (scriptOf spec i).outcome hst']
          have hgetD_i : s.tasks.getD i dummyTask = s.tasks[i] := List.getD_eq_getElem _ _ hin
          -- new size invariant, needed twice
          have hsize' : ∀ (j : Nat) (hj : j < (s.tasks.set i
              { s.tasks.getD i dummyTask with sizeTotal := e.2, sizeLoaded := e.1 }).length),
              (s.tasks.set i
                { s.tasks.getD i dummyTask with sizeTotal := e.2, sizeLoaded := e.1 })[j].sizeLoaded =
                lastLoadedOf (s.deliveredEvents ++ [(i, e.1, e.2)]) j := by
            intro j hj
            rcases getElem_set_cases s.tasks i hin _ j hj with ⟨heq, hget⟩ | ⟨hne, hj', hget⟩
            · rw [hget, heq, lastLoadedOf_append_self]
            · rw [hget, lastLoadedOf_append_ne _ _ _ _ _ (fun h => hne h.symm)]
              exact hsize j hj'
          refine ⟨?_, ?_, hclaims, hclaimsle, ?_, ?_, ?_, ?_, ?_, ?_, ?_, ?_⟩
          · -- tlen
            dsimp only
            simpa using htlen
          · -- started_iff
            dsimp only
            intro j hj
            rcases getElem_set_cases s.tasks i hin _ j hj with ⟨heq, hget⟩ | ⟨hne, hj', hget⟩
            · rw [hget, heq]
              show (s.tasks.getD i dummyTask).started = true ↔ _
              rw [hgetD_i]
              exact hstarted i hin
            · rw [hget]
              exact hstarted j hj'
          · -- wbound
            dsimp only
            intro v hv j sc' hf
            rcases getElem_set_cases s.workers w hw _ v hv with ⟨heq, hget⟩ | ⟨hne, hv', hget⟩
            · rw [hget] at hf
              injection hf with hj _
              simpa [List.length_set, ← hj] using hin
            · rw [hget] at hf
              have := hwbound v hv' j sc' hf
              simpa using this
          · -- uniq
            dsimp only
            intro v1 v2 h1 h2 j sc1 sc2 hf1 hf2
            rcases getElem_set_cases s.workers w hw _ v1 h1 with ⟨heq1, hget1⟩ | ⟨hne1, h1', hget1⟩ <;>
              rcases getElem_set_cases s.workers w hw _ v2 h2 with ⟨heq2, hget2⟩ | ⟨hne2, h2', hget2⟩
            · omega
            · rw [hget1] at hf1
              rw [hget2] at hf2
              injection hf1 with hj _
              subst hj
              have := honly v2 h2' sc2 hf2
              omega
            · rw [hget1] at hf1
              rw [hget2] at hf2
              injection hf2 with hj _
              subst hj
              have := honly v1 h1' sc1 hf1
              omega
            · rw [hget1] at hf1
              rw [hget2] at hf2
              exact huniq v1 v2 h1' h2' j sc1 sc2 hf1 hf2
          · -- rej_iff
            dsimp only
            refine hrej.trans (Iff.symm ?_)
            refine exists_getElem_set_iff s.workers w hw _ (fun x => x = WStatus.failed) ?_ ?_
            · rw [hst]; simp
            · simp
          · -- exited_full
            dsimp only
            intro v hv hex
            rcases getElem_set_cases s.workers w hw _ v hv with ⟨heq, hget⟩ | ⟨hne, hv', hget⟩
            · rw [hget] at hex
              exact absurd hex (by simp)
            · rw [hget] at hex
              exact hexited v hv' hex
          · -- phase
            intro j hj
            have hj0 : j < (s.tasks.set i
                { s.tasks.getD i dummyTask with sizeTotal := e.2, sizeLoaded := e.1 }).length := by
              simpa using hj
            have hjs : j < s.tasks.length := by simpa using hj0
            by_cases hji : j = i
            · have hij : i = j := hji.symm
              subst hij
              -- task j = i stays active with one more delivered event
              refine Or.inr (Or.inl ⟨?_, ?_, w, by simpa using hw, k + 1, ?_, ?_⟩)
              · show (s.tasks.set i
                  { s.tasks.getD i dummyTask with sizeTotal := e.2, sizeLoaded := e.1 })[i].started =
                  true
                rw [List.getElem_set_self (by simpa using hj0)]
                show (s.tasks.getD i dummyTask).started = true
                rw [hgetD_i]
                exact hstart_i
              · show (s.tasks.set i
                  { s.tasks.getD i dummyTask with sizeTotal := e.2, sizeLoaded := e.1 })[i].result =
                  []
                rw [List.getElem_set_self (by simpa using hj0)]
                show (s.tasks.getD i dummyTask).result = []
                rw [hgetD_i]
                exact hres_i
              · have hw2 : w < (s.workers.set w
                    (WStatus.fetching i ⟨rest, (scriptOf spec i).outcome⟩)).length := by
                  simpa using hw
                show (s.workers.set w
                  (WStatus.fetching i ⟨rest, (scriptOf spec i).outcome⟩))[w] =
                  WStatus.fetching i
                    ⟨(scriptOf spec i).events.drop (k + 1), (scriptOf spec i).outcome⟩
                rw [List.getElem_set_self hw2, hrest]
              · show historyFor (s.deliveredEvents ++ [(i, e.1, e.2)]) i =
                  (scriptOf spec i).events.take (k + 1)
                rw [historyFor_append_self, hhist_i, List.take_succ,
                  List.getElem?_eq_getElem hklt, he]
                simp
            · refine TaskPhase_untouched spec s _ j hjs hj (hphase j hjs) ?_ ?_ (fun h => h) ?_ ?_
              · show (s.tasks.set i
                  { s.tasks.getD i dummyTask with sizeTotal := e.2, sizeLoaded := e.1 })[j] =
                  s.tasks[j]
                exact List.getElem_set_ne (fun h => hji h.symm) _
              · show historyFor (s.deliveredEvents ++ [(i, e.1, e.2)]) j = _
                exact historyFor_append_ne _ _ _ _ _ (fun h => hji h.symm)
              · intro v hv sc' hf
                have hvw : v ≠ w := by
                  intro hcontra
                  subst hcontra
                  rw [hst] at hf
                  injection hf with hij _
                  exact hji hij.symm
                have hv2 : v < (s.workers.set w
                    (WStatus.fetching i ⟨rest, (scriptOf spec i).outcome⟩)).length := by
                  simpa using hv
                refine ⟨v, hv2, ?_⟩
                show (s.workers.set w (WStatus.fetching i ⟨rest, (scriptOf spec i).outcome⟩))[v] =
                  WStatus.fetching j sc'
                rw [List.getElem_set_ne (fun h => hvw h.symm) _]
                exact hf
              · intro h
                exact noWorkerOn_set s.workers w hw _ j h
                  (fetching_ne _ _ _ (fun hcontra => hji hcontra.symm))
          · -- size_inv
            dsimp only
            exact hsize'
          · -- ev_bound
            dsimp only
            intro ev hev'
            rcases List.mem_append.mp hev' with hmem | hmem
            · exact hev ev hmem
            · simp only [List.mem_singleton] at hmem
              subst hmem
              exact hinn
          · -- inv_eq
            dsimp only
            cases rp with
            | false =>
                simp only [Bool.false_eq_true, if_false]
                simpa using hinvocs
            | true =>
                simp only [eq_self_iff_true, if_true] at hinvocs ⊢
                rw [aggregateOf_concat, hinvocs]
                congr 2
                have hsum := sumLoaded_eq_of_tasks
                  (s.tasks.set i { s.tasks.getD i dummyTask with sizeTotal := e.2, sizeLoaded := e.1 })
                  (s.deliveredEvents ++ [(i, e.1, e.2)]) hsize'
                rw [hsum]
                simp [htlen]
  · rw [stepWorker_oob rp ts spec s w (Nat.le_of_not_lt hw)]
    exact hInv


/-- The pre-spawn state satisfies the invariant. -/
theorem base_inv (rp : Bool) (ts : Option Int) (spec : List Script) (urls : List String) :
    Inv rp ts spec urls.length ⟨urls.map initTask, [], [], [], [], false⟩ := by
  refine ⟨by simp, ?_, rfl, by simp, ?_, ?_, ?_, ?_, ?_, ?_, ?_, ?_⟩
  · intro i hi
    have hi' : i < urls.length := by simpa using hi
    have : (urls.map initTask)[i] = initTask (urls[i]) := List.getElem_map initTask
    rw [this]
    simp [initTask]
  · intro w hw
    simp at hw
  · intro w1 w2 h1 h2
    simp at h1
  · constructor
    · intro h
      exact absurd h (by simp)
    · rintro ⟨w, hw, _⟩
      simp at hw
  · intro w hw
    simp at hw
  · intro i hi
    have hi' : i < urls.length := by simpa using hi
    have hget : (urls.map initTask)[i] = initTask (urls[i]) := List.getElem_map initTask
    refine Or.inl ⟨?_, ?_, ?_, ?_⟩
    · rw [hget]
      rfl
    · rw [hget]
      rfl
    · intro w hw
      simp at hw
    · simp [historyFor]
  · intro i hi
    have hil : i < urls.length := by simpa using hi
    have hget : (urls.map initTask)[i] = initTask urls[i] :=
      List.getElem_map initTask
    rw [hget]
    simp [initTask, lastLoadedOf, historyFor]
  · intro e he
    simp at he
  · cases rp <;> simp [aggregateOf]

/-- Spawning any number of workers preserves the invariant. -/
theorem spawnN_inv (rp : Bool) (ts : Option Int) (spec : List Script) (n : Nat) (k : Nat)
    (s : SchedState) (hInv : Inv rp ts spec n s) : Inv rp ts spec n (spawnN spec k s) := by
  induction k generalizing s with
  | zero => exact hInv
  | succ m ih => exact ih (spawnOne spec s) (spawnOne_inv rp ts spec n s hInv)

/-- The fully initialized state (registry plus spawned workers) satisfies the
invariant. -/
theorem initState_inv (rp : Bool) (ts : Option Int) (spec : List Script)
    (urls : List String) (nWorkers : Nat) :
    Inv rp ts spec urls.length (initState spec urls nWorkers) :=
  spawnN_inv rp ts spec urls.length nWorkers _ (base_inv rp ts spec urls)

/-- Running any schedule preserves the invariant. -/
theorem runSched_inv (rp : Bool) (ts : Option Int) (spec : List Script) (n : Nat)
    (s : SchedState) (schedule : List Nat) (hInv : Inv rp ts spec n s) :
    Inv rp ts spec n (runSched rp ts spec s schedule) := by
  induction schedule generalizing s with
  | nil => exact hInv
  | cons w ws ih => exact ih (stepWorker rp ts spec s w) (stepWorker_inv rp ts spec n s w hInv)



/-! ## Reading off the final state -/

theorem shapeResult_error_iff (s : SchedState) :
    shapeResult s = LoadResult.error ↔ s.rejected = true := by
  unfold shapeResult
  by_cases hr : s.rejected = true
  · simp [hr]
  · rw [if_neg (by simpa using hr)]
    by_cases he : allExited s.workers = true
    · rw [if_pos he]
      constructor
      · intro h
        cases hts : s.tasks with
        | nil => rw [hts] at h; exact absurd h (by simp)
        | cons t rest =>
            cases rest with
            | nil => rw [hts] at h; exact absurd h (by simp)
            | cons t2 r2 => rw [hts] at h; exact absurd h (by simp)
      · intro h
        exact absurd h hr
    · rw [if_neg (by simpa using he)]
      constructor
      · intro h
        exact absurd h (by simp)
      · intro h
        exact absurd h hr

theorem shapeResult_single (s : SchedState) (b : List Nat)
    (h : shapeResult s = LoadResult.single b) :
    s.rejected = false ∧ allExited s.workers = true ∧ s.tasks.length = 1 ∧
      s.tasks.map Task.result = [b] := by
  unfold shapeResult at h
  by_cases hr : s.rejected = true
  · rw [if_pos hr] at h
    exact absurd h (by simp)
  · rw [if_neg (by simpa using hr)] at h
    by_cases he : allExited s.workers = true
    · rw [if_pos he] at h
      cases hts : s.tasks with
      | nil =>
          rw [hts] at h
          exact absurd h (by simp)
      | cons t rest =>
          cases rest with
          | nil =>
              rw [hts] at h
              have hb : t.result = b := by
                have := h
                simp only [LoadResult.single.injEq] at this
                exact this
              exact ⟨by simpa using hr, he, by simp [hts], by simp [hts, hb]⟩
          | cons t2 r2 =>
              rw [hts] at h
              exact absurd h (by simp)
    · rw [if_neg (by simpa using he)] at h
      exact absurd h (by simp)

theorem shapeResult_many (s : SchedState) (bs : List (List Nat))
    (h : shapeResult s = LoadResult.many bs) :
    s.rejected = false ∧ allExited s.workers = true ∧ bs = s.tasks.map Task.result := by
  unfold shapeResult at h
  by_cases hr : s.rejected = true
  · rw [if_pos hr] at h
    exact absurd h (by simp)
  · rw [if_neg (by simpa using hr)] at h
    by_cases he : allExited s.workers = true
    · rw [if_pos he] at h
      cases hts : s.tasks with
      | nil =>
          rw [hts] at h
          simp only [List.map_nil, LoadResult.many.injEq] at h
          exact ⟨by simpa using hr, he, by simpa using h.symm⟩
      | cons t rest =>
          cases rest with
          | nil =>
              rw [hts] at h
              exact absurd h (by simp)
          | cons t2 r2 =>
              rw [hts] at h
              simp only [LoadResult.many.injEq] at h
              exact ⟨by simpa using hr, he, h.symm⟩
    · rw [if_neg (by simpa using he)] at h
      exact absurd h (by simp)

theorem allExited_getElem (ws : List WStatus) (hex : allExited ws = true) (w : Nat)
    (hw : w < ws.length) : ws[w] = WStatus.exited := by
  have := List.all_eq_true.mp hex _ (List.getElem_mem hw)
  cases hst : ws[w] with
  | fetching i sc => rw [hst] at this; exact absurd this (by simp [WStatus.isExited])
  | exited => rfl
  | failed => rw [hst] at this; exact absurd this (by simp [WStatus.isExited])

/-- In a completed, non-rejected run with at least one worker, every task has
been fetched: its buffer holds exactly the bytes its script resolved with,
and its whole event history has been delivered. -/
theorem all_done_of_completed (rp : Bool) (ts : Option Int) (spec : List Script) (n : Nat)
    (s : SchedState) (hInv : Inv rp ts spec n s) (hex : allExited s.workers = true)
    (hne : s.workers ≠ []) (hnorej : s.rejected = false) (i : Nat) (hi : i < s.tasks.length) :
    (scriptOf spec i).outcome = some (s.tasks[i].result) ∧
      historyFor s.deliveredEvents i = (scriptOf spec i).events := by
  have h0 : 0 < s.workers.length := List.length_pos.mpr hne
  have hfull : s.claimEvents.length = n :=
    hInv.exited_full 0 h0 (allExited_getElem s.workers hex 0 h0)
  have hstart : s.tasks[i].started = true := by
    refine (hInv.started_iff i hi).mpr ?_
    rw [hfull]
    exact hInv.tlen ▸ hi
  rcases hInv.phase i hi with ⟨h1, _⟩ | ⟨_, _, w, hw, k, hweq, _⟩ | ⟨_, _, h3, h4⟩
  · rw [hstart] at h1
    exact absurd h1 (by simp)
  · rw [allExited_getElem s.workers hex w hw] at hweq
    exact absurd hweq (by simp)
  · refine ⟨?_, h3⟩
    cases hout : (scriptOf spec i).outcome with
    | some b =>
        rw [hout] at h4
        rw [h4]
    | none =>
        rw [hout] at h4
        rw [h4.2] at hnorej
        exact absurd hnorej (by simp)

/-- Every buffer in the registry is either the untouched empty placeholder or
exactly the bytes the task's script resolved with. -/
theorem result_provenance (rp : Bool) (ts : Option Int) (spec : List Script) (n : Nat)
    (s : SchedState) (hInv : Inv rp ts spec n s) (i : Nat) (hi : i < s.tasks.length) :
    s.tasks[i].result = [] ∨ (scriptOf spec i).outcome = some (s.tasks[i].result) := by
  rcases hInv.phase i hi with ⟨_, h2, _⟩ | ⟨_, h2, _⟩ | ⟨_, _, _, h4⟩
  · exact Or.inl h2
  · exact Or.inl h2
  · cases hout : (scriptOf spec i).outcome with
    | some b =>
        rw [hout] at h4
        exact Or.inr (by rw [h4])
    | none =>
        rw [hout] at h4
        exact Or.inl h4.1

/-- Each task's delivered history is a prefix of its script's event list. -/
theorem history_prefix (rp : Bool) (ts : Option Int) (spec : List Script) (n : Nat)
    (s : SchedState) (hInv : Inv rp ts spec n s) (i : Nat) (hi : i < s.tasks.length) :
    ∃ k, historyFor s.deliveredEvents i = (scriptOf spec i).events.take k := by
  rcases hInv.phase i hi with ⟨_, _, _, h4⟩ | ⟨_, _, _, _, k, _, hh⟩ | ⟨_, _, h3, _⟩
  · exact ⟨0, by simpa using h4⟩
  · exact ⟨k, hh⟩
  · exact ⟨(scriptOf spec i).events.length, by rw [h3, List.take_length]⟩

theorem historyFor_of_ge (h : List (Nat × Nat × Nat)) (n : Nat)
    (hev : ∀ e ∈ h, e.1 < n) (i : Nat) (hi : n ≤ i) : historyFor h i = [] := by
  unfold historyFor
  rw [List.filter_eq_nil_iff.mpr ?_]
  · rfl
  · intro e he
    have := hev e he
    simp only [beq_iff_eq]
    omega

/-! ## Worker count bookkeeping -/

theorem stepWorker_workers_length (rp : Bool) (ts : Option Int) (spec : List Script)
    (s : SchedState) (w : Nat) :
    (stepWorker rp ts spec s w).workers.length = s.workers.length := by
  by_cases hw : w < s.workers.length
  · cases hst : s.workers[w] with
    | exited => rw [stepWorker_exited rp ts spec s w hw hst]
    | failed => rw [stepWorker_failed rp ts spec s w hw hst]
    | fetching i sc =>
        rcases sc with ⟨events, outcome⟩
        cases events with
        | cons e rest =>
            rw [stepWorker_deliver rp ts spec s w hw i e rest outcome hst]
            simp
        | nil =>
            cases outcome with
            | some bytes =>
                rw [stepWorker_settle_ok rp ts spec s w hw i bytes hst]
                simp
            | none =>
                rw [stepWorker_settle_fail rp ts spec s w hw i hst]
                simp
  · rw [stepWorker_oob rp ts spec s w (by omega)]

theorem runSched_workers_length (rp : Bool) (ts : Option Int) (spec : List Script)
    (s : SchedState) (schedule : List Nat) :
    (runSched rp ts spec s schedule).workers.length = s.workers.length := by
  induction schedule generalizing s with
  | nil => rfl
  | cons w ws ih =>
      show (runSched rp ts spec (stepWorker rp ts spec s w) ws).workers.length = _
      rw [ih, stepWorker_workers_length]

theorem spawnN_workers_length (spec : List Script) (k : Nat) (s : SchedState) :
    (spawnN spec k s).workers.length = s.workers.length + k := by
  induction k generalizing s with
  | zero => rfl
  | succ m ih =>
      show (spawnN spec m (spawnOne spec s)).workers.length = _
      rw [ih]
      have : (spawnOne spec s).workers.length = s.workers.length + 1 := by
        unfold spawnOne
        simp
      rw [this]
      omega

theorem initState_workers_length (spec : List Script) (urls : List String) (k : Nat) :
    (initState spec urls k).workers.length = k := by
  unfold initState
  rw [spawnN_workers_length]
  simp

/-! ## Degenerate runs -/

theorem runSched_no_workers (rp : Bool) (ts : Option Int) (spec : List Script)
    (s : SchedState) (schedule : List Nat) (hw : s.workers = []) :
    runSched rp ts spec s schedule = s := by
  induction schedule with
  | nil => rfl
  | cons w ws ih =>
      show runSched rp ts spec (stepWorker rp ts spec s w) ws = s
      rw [stepWorker_oob rp ts spec s w (by rw [hw]; simp), ih]

theorem runSched_all_exited (rp : Bool) (ts : Option Int) (spec : List Script)
    (s : SchedState) (schedule : List Nat)
    (hex : ∀ st ∈ s.workers, st = WStatus.exited) :
    runSched rp ts spec s schedule = s := by
  induction schedule with
  | nil => rfl
  | cons w ws ih =>
      show runSched rp ts spec (stepWorker rp ts spec s w) ws = s
      by_cases hw : w < s.workers.length
      · rw [stepWorker_exited rp ts spec s w hw (hex _ (List.getElem_mem hw)), ih]
      · rw [stepWorker_oob rp ts spec s w (by omega), ih]

theorem spawnN_nil_tasks (spec : List Script) (k : Nat) (s : SchedState)
    (ht : s.tasks = []) :
    spawnN spec k s = { s with workers := s.workers ++ List.replicate k WStatus.exited } := by
  induction k generalizing s with
  | zero =>
      show s = _
      cases s
      simp
  | succ m ih =>
      show spawnN spec m (spawnOne spec s) = _
      have hone : spawnOne spec s = { s with workers := s.workers ++ [WStatus.exited] } := by
        unfold spawnOne
        rw [claimNext_of_ge spec s.tasks s.claimEvents
          (by intro j hj; rw [ht] at hj; exact absurd hj (by simp))
          (by rw [ht]; simp)]
      rw [hone, ih { s with workers := s.workers ++ [WStatus.exited] } ht]
      simp [List.replicate_succ, List.append_assoc]

theorem initState_nil_urls (spec : List Script) (k : Nat) :
    initState spec [] k =
      ⟨[], List.replicate k WStatus.exited, [], [], [], false⟩ := by
  unfold initState
  rw [spawnN_nil_tasks spec k _ rfl]
  simp



/-! ## Pure lemmas about the aggregate invocation list -/

theorem historyFor_append_cases (h : List (Nat × Nat × Nat)) (e : Nat × Nat × Nat) (i : Nat) :
    historyFor (h ++ [e]) i =
      historyFor h i ++ (if e.1 = i then [e.2] else []) := by
  obtain ⟨t, a, b⟩ := e
  by_cases ht : t = i
  · subst ht
    rw [historyFor_append_self]
    simp
  · rw [historyFor_append_ne h t i a b ht]
    simp [ht]

theorem historyFor_prefix_of_append (h : List (Nat × Nat × Nat)) (e : Nat × Nat × Nat)
    (i : Nat) : historyFor h i <+: historyFor (h ++ [e]) i := by
  rw [historyFor_append_cases]
  exact List.prefix_append _ _

/-- Appending one monotone event cannot decrease the aggregate sum. -/
theorem sumLoaded_le_append (n : Nat) (h : List (Nat × Nat × Nat)) (e : Nat × Nat × Nat)
    (hmono : ∀ i, List.Chain' (· ≤ ·) ((historyFor (h ++ [e]) i).map Prod.fst)) :
    sumLoaded n h ≤ sumLoaded n (h ++ [e]) := by
  unfold sumLoaded
  refine List.sum_le_sum ?_
  intro i hi
  obtain ⟨t, a, b⟩ := e
  by_cases ht : t = i
  · subst ht
    rw [lastLoadedOf_append_self]
    have hchain := hmono t
    rw [historyFor_append_self, List.map_append] at hchain
    rcases List.chain'_append.mp hchain with ⟨_, _, hlast⟩
    unfold lastLoadedOf
    cases hl : ((historyFor h t).map Prod.fst).getLast? with
    | none => simp
    | some x =>
        have := hlast x hl (a, b).1 (by simp)
        simpa using this
  · rw [lastLoadedOf_append_ne h t i a b ht]

/-- If each task's delivered events report non-decreasing loaded counts, the
aggregate invocation list is monotone in its loaded component. -/
theorem aggregate_mono (n : Nat) (ts : Option Int) (h : List (Nat × Nat × Nat))
    (hmono : ∀ i, List.Chain' (· ≤ ·) ((historyFor h i).map Prod.fst)) :
    List.Chain' (fun a b => a.1 ≤ b.1) (aggregateOf n ts h) := by
  induction h using List.reverseRecOn with
  | nil => simp [aggregateOf]
  | append_singleton h0 e ih =>
      have hmono' : ∀ i, List.Chain' (· ≤ ·) ((historyFor (h0 ++ [e]) i).map Prod.fst) := by
        intro i
        have hmi := hmono i
        simpa using hmi
      have hmono0 : ∀ i, List.Chain' (· ≤ ·) ((historyFor h0 i).map Prod.fst) := by
        intro i
        exact List.Chain'.prefix (hmono' i) ((historyFor_prefix_of_append h0 e i).map _)
      have hgoal : List.Chain' (fun a b => a.1 ≤ b.1) (aggregateOf n ts (h0 ++ [e])) := by
        rw [aggregateOf_concat]
        refine List.chain'_append.mpr ⟨ih hmono0, by simp, ?_⟩
        intro x hx y hy
        simp only [List.head?_cons, Option.mem_def, Option.some.injEq] at hy
        subst hy
        rcases List.eq_nil_or_concat h0 with h0nil | ⟨L, e0, hL⟩
        · subst h0nil
          simp [aggregateOf] at hx
        · rw [List.concat_eq_append] at hL
          rw [hL, aggregateOf_concat, List.getLast?_concat] at hx
          simp only [Option.mem_def, Option.some.injEq] at hx
          subst hx
          show sumLoaded n (L ++ [e0]) ≤ sumLoaded n (h0 ++ [e])
          rw [← hL]
          exact sumLoaded_le_append n h0 e hmono'
      simpa using hgoal

theorem aggregateOf_getLast (n : Nat) (ts : Option Int) (h : List (Nat × Nat × Nat))
    (hne : h ≠ []) :
    (aggregateOf n ts h).getLast? = some (sumLoaded n h, ts) := by
  rcases List.eq_nil_or_concat h with h0 | ⟨L, e, hL⟩
  · exact absurd h0 hne
  · rw [hL, List.concat_eq_append, aggregateOf_concat, List.getLast?_concat]

/-! ## Unfolding the two top-level branches of `loadBinaryResource` -/

theorem load_false_eq (urls : List String) (nMax : Int) (headers : String → Option String)
    (spec : List Script) (schedule : List Nat) :
    loadBinaryResource urls nMax false headers spec schedule =
      (let s := runSched false (some (-1)) spec (initState spec urls nMax.toNat) schedule
       ⟨shapeResult s, s.invocations, s.deliveredEvents, s.claimEvents, s.tasks, s.workers,
         nMax.toNat⟩) := rfl

theorem load_true_eq (urls : List String) (nMax : Int) (headers : String → Option String)
    (spec : List Script) (schedule : List Nat) (sizes : List (Option Int))
    (hp : probeAll headers urls = some sizes) :
    loadBinaryResource urls nMax true headers spec schedule =
      (let s := runSched true (sumArrJS sizes) spec (initState spec urls nMax.toNat) schedule
       ⟨shapeResult s, s.invocations, s.deliveredEvents, s.claimEvents, s.tasks, s.workers,
         nMax.toNat⟩) := by
  have hm : loadBinaryResource urls nMax true headers spec schedule =
      (match probeAll headers urls with
       | none => ⟨LoadResult.error, [], [], [], urls.map initTask, [], 0⟩
       | some sizes =>
          let s := runSched true (sumArrJS sizes) spec (initState spec urls nMax.toNat) schedule
          ⟨shapeResult s, s.invocations, s.deliveredEvents, s.claimEvents, s.tasks, s.workers,
            nMax.toNat⟩) := rfl
  rw [hm, hp]

theorem load_probe_fail_eq (urls : List String) (nMax : Int)
    (headers : String → Option String) (spec : List Script) (schedule : List Nat)
    (hp : probeAll headers urls = none) :
    loadBinaryResource urls nMax true headers spec schedule =
      ⟨LoadResult.error, [], [], [], urls.map initTask, [], 0⟩ := by
  have hm : loadBinaryResource urls nMax true headers spec schedule =
      (match probeAll headers urls with
       | none => ⟨LoadResult.error, [], [], [], urls.map initTask, [], 0⟩
       | some sizes =>
          let s := runSched true (sumArrJS sizes) spec (initState spec urls nMax.toNat) schedule
          ⟨shapeResult s, s.invocations, s.deliveredEvents, s.claimEvents, s.tasks, s.workers,
            nMax.toNat⟩) := rfl
  rw [hm, hp]

/-- A probe rejection for any listed url rejects `Promise.all` of the probes. -/
theorem probeAll_eq_none (headers : String → Option String) (urls : List String)
    (h : ∃ u ∈ urls, getBinarySize (headers u) = ProbeResult.rejected) :
    probeAll headers urls = none := by
  induction urls with
  | nil => simp at h
  | cons u us ih =>
      rcases h with ⟨x, hx, hrej⟩
      rcases List.mem_cons.mp hx with hxu | hxs
      · subst hxu
        unfold probeAll
        rw [hrej]
      · unfold probeAll
        cases hgb : getBinarySize (headers u) with
        | rejected => rfl
        | resolved v => rw [ih ⟨x, hxs, hrej⟩]; rfl



/-! ## Claim theorems -/

/-- C3 counterexample: the probe does NOT fail when the `Content-Length`
header is absent — `?? ''` turns absence into the empty string, `+'' = 0` is
not `NaN`, so the code resolves `parseInt('') = NaN` instead of rejecting;
a negative declared length is likewise resolved as-is, not rejected; only a
string failing numeric coercion rejects. -/
theorem c3_counterexample :
    getBinarySize none = ProbeResult.resolved none ∧
      getBinarySize (some ("-7")) = ProbeResult.resolved (some (-7)) ∧
      getBinarySize (some ("abc")) = ProbeResult.rejected := by
  refine ⟨?_, ?_, ?_⟩ <;> decide

/-- C3 amended: the size probe rejects exactly when JavaScript numeric
coercion of the header value (the empty string when the header is absent)
yields `NaN`; an absent header therefore resolves — with value
`parseInt('') = NaN` — rather than failing, and negative declared lengths
are resolved as-is; a successful probe resolves `parseInt` of the header
value.  When a progress callback was supplied and any probe rejects, the
whole operation fails before any worker is spawned, any task is claimed, or
any transfer event is delivered. -/
theorem c3_amended :
    (∀ h : Option String,
      (getBinarySize h = ProbeResult.rejected ↔ jsToNumber (h.getD ("")) = none)) ∧
    (∀ (h : Option String) (v : Option Int),
      getBinarySize h = ProbeResult.resolved v → v = jsParseInt (h.getD (""))) ∧
    (∀ (urls : List String) (nMax : Int) (headers : String → Option String)
        (spec : List Script) (schedule : List Nat),
      (∃ u ∈ urls, getBinarySize (headers u) = ProbeResult.rejected) →
        (loadBinaryResource urls nMax true headers spec schedule).result = LoadResult.error ∧
        (loadBinaryResource urls nMax true headers spec schedule).spawned = 0 ∧
        (loadBinaryResource urls nMax true headers spec schedule).claimEvents = [] ∧
        (loadBinaryResource urls nMax true headers spec schedule).invocations = [] ∧
        (loadBinaryResource urls nMax true headers spec schedule).deliveredEvents = []) := by
  refine ⟨?_, ?_, ?_⟩
  · intro h
    cases hj : jsToNumber (h.getD ("")) with
    | none => simp [getBinarySize, hj]
    | some v => simp [getBinarySize, hj]
  · intro h v hres
    cases hj : jsToNumber (h.getD ("")) with
    | none => simp [getBinarySize, hj] at hres
    | some v2 =>
        simp only [getBinarySize, hj] at hres
        injection hres with hv
        exact hv.symm
  · intro urls nMax headers spec schedule hex
    rw [load_probe_fail_eq urls nMax headers spec schedule (probeAll_eq_none headers urls hex)]
    exact ⟨rfl, rfl, rfl, rfl, rfl⟩

theorem c3_amended_witness :
    (getBinarySize (some ("abc")) = ProbeResult.rejected ↔
      jsToNumber ((some ("abc")).getD ("")) = none) ∧
    ((loadBinaryResource [("a")] 1 true (fun _ => some ("abc")) [] []).result =
        LoadResult.error ∧
      (loadBinaryResource [("a")] 1 true (fun _ => some ("abc")) [] []).spawned = 0 ∧
      (loadBinaryResource [("a")] 1 true (fun _ => some ("abc")) [] []).claimEvents = [] ∧
      (loadBinaryResource [("a")] 1 true (fun _ => some ("abc")) [] []).invocations = [] ∧
      (loadBinaryResource [("a")] 1 true (fun _ => some ("abc")) [] []).deliveredEvents = []) :=
  ⟨c3_amended.1 (some ("abc")),
   c3_amended.2.2 [("a")] 1 (fun _ => some ("abc")) [] [] ⟨("a"), by simp, by decide⟩⟩

/-- C5: a cache hit returns the cached bytes immediately — the per-task
progress callback is never invoked and no network transfer is performed. -/
theorem c5_cache_hit (url : String) (lookup : String → Option (List Nat))
    (transfer : TransferSpec) (hasCallback : Bool) (bytes : List Nat)
    (hhit : lookup url = some bytes) :
    _loadBinaryResource url (some lookup) transfer hasCallback =
      ⟨FetchResult.ok bytes, [], false⟩ := by
  have h1 : _loadBinaryResource url (some lookup) transfer hasCallback =
      (match lookup url with
       | some cached => ⟨FetchResult.ok cached, [], false⟩
       | none =>
          { result :=
              match transfer.response with
              | none => FetchResult.err
              | some got => if transfer.putFails then FetchResult.hung else FetchResult.ok got
            progressEvents := if hasCallback then transfer.events else []
            networkUsed := true }) := rfl
  rw [h1, hhit]

theorem c5_cache_hit_witness :
    _loadBinaryResource ("x") (some (fun u => if u == ("x") then some [1, 2] else none))
        ⟨[(1, 2)], some [9], false⟩ true = ⟨FetchResult.ok [1, 2], [], false⟩ :=
  c5_cache_hit ("x") (fun u => if u == ("x") then some [1, 2] else none)
    ⟨[(1, 2)], some [9], false⟩ true [1, 2] rfl

/-- C6: in `_loadBinaryResource` the `onload` handler runs
`if (cache) { await cache.put(url, ...) }; resolve(byteArray)` with no
rejection handling.  When the cache is present and `cache.put` rejects, the
async handler aborts before `resolve`, so the returned promise never
settles: the downloaded bytes are NOT returned to the caller.  Without a
cache the very same transfer resolves normally, pinning the hang on the
cache-store path. -/
theorem c6_put_failure_hangs :
    (_loadBinaryResource ("u") (some (fun _ => none)) ⟨[], some [1, 2, 3], true⟩ true).result =
      FetchResult.hung ∧
    (_loadBinaryResource ("u") none ⟨[], some [1, 2, 3], true⟩ true).result =
      FetchResult.ok [1, 2, 3] :=
  ⟨rfl, rfl⟩



/-- The two non-error branches of `loadBinaryResource`, uniformly: when the
probe stage succeeds (or is skipped), the call is the event-loop run with
some fixed total. -/
theorem load_run_eq (urls : List String) (nMax : Int) (rp : Bool)
    (headers : String → Option String) (spec : List Script) (schedule : List Nat)
    (hprobe : rp = true → ∃ sizes, probeAll headers urls = some sizes) :
    ∃ ts : Option Int,
      loadBinaryResource urls nMax rp headers spec schedule =
        ⟨shapeResult (runSched rp ts spec (initState spec urls nMax.toNat) schedule),
         (runSched rp ts spec (initState spec urls nMax.toNat) schedule).invocations,
         (runSched rp ts spec (initState spec urls nMax.toNat) schedule).deliveredEvents,
         (runSched rp ts spec (initState spec urls nMax.toNat) schedule).claimEvents,
         (runSched rp ts spec (initState spec urls nMax.toNat) schedule).tasks,
         (runSched rp ts spec (initState spec urls nMax.toNat) schedule).workers,
         nMax.toNat⟩ := by
  cases rp with
  | false => exact ⟨some (-1), load_false_eq urls nMax headers spec schedule⟩
  | true =>
      obtain ⟨sizes, hp⟩ := hprobe rfl
      exact ⟨sumArrJS sizes, load_true_eq urls nMax headers spec schedule sizes hp⟩

/-- C2 counterexample: with `nMaxParallel = 0` and one identifier, the
spawn loop `for (let i = 0; i < nMaxParallel; i++)` runs zero times, so no
task is ever claimed or fetched: the call resolves immediately with the
untouched empty placeholder buffer, even though the transfer script had
bytes to offer.  There is no clamping of `maxParallel` to 1. -/
theorem c2_counterexample :
    (loadBinaryResource [("a")] 0 false (fun _ => none) [⟨[], some [7]⟩] [0, 1, 2]).result =
      LoadResult.single [] ∧
    (loadBinaryResource [("a")] 0 false (fun _ => none) [⟨[], some [7]⟩] [0, 1, 2]).claimEvents =
      [] ∧
    (loadBinaryResource [("a")] 0 false (fun _ => none) [⟨[], some [7]⟩] [0, 1, 2]).spawned =
      0 := by
  refine ⟨?_, ?_, ?_⟩ <;> decide

/-- C2 amended: the scheduler spawns exactly `max(nMaxParallel, 0)` workers —
there is no `min` with the task count and no clamping to at least 1.  With
`maxParallel ≤ 0` and a non-empty identifier list, no worker is spawned,
nothing is claimed, fetched or reported, and the call returns immediately
with every task's buffer still the empty placeholder.  Zero identifiers
return the empty result list immediately (extra workers find no unclaimed
task and exit at once). -/
theorem c2_amended (urls : List String) (nMax : Int) (rp : Bool)
    (headers : String → Option String) (spec : List Script) (schedule : List Nat)
    (hprobe : rp = true → ∃ sizes, probeAll headers urls = some sizes) :
    (loadBinaryResource urls nMax rp headers spec schedule).spawned = nMax.toNat ∧
    (nMax ≤ 0 →
      (loadBinaryResource urls nMax rp headers spec schedule).claimEvents = [] ∧
      (loadBinaryResource urls nMax rp headers spec schedule).deliveredEvents = [] ∧
      ∀ t ∈ (loadBinaryResource urls nMax rp headers spec schedule).finalTasks,
        t.result = []) ∧
    (urls = [] →
      (loadBinaryResource urls nMax rp headers spec schedule).result = LoadResult.many []) := by
  obtain ⟨ts, hload⟩ := load_run_eq urls nMax rp headers spec schedule hprobe
  rw [hload]
  refine ⟨rfl, ?_, ?_⟩
  · intro hneg
    have h0 : nMax.toNat = 0 := by omega
    have hrun : runSched rp ts spec (initState spec urls nMax.toNat) schedule =
        ⟨urls.map initTask, [], [], [], [], false⟩ := by
      rw [h0]
      exact runSched_no_workers rp ts spec _ schedule rfl
    refine ⟨?_, ?_, ?_⟩
    · show (runSched rp ts spec (initState spec urls nMax.toNat) schedule).claimEvents = []
      rw [hrun]
    · show (runSched rp ts spec (initState spec urls nMax.toNat) schedule).deliveredEvents = []
      rw [hrun]
    · intro t ht
      have ht2 : t ∈ (runSched rp ts spec (initState spec urls nMax.toNat) schedule).tasks :=
        ht
      rw [hrun] at ht2
      obtain ⟨u, hu, hti⟩ := List.mem_map.mp ht2
      rw [← hti]
      rfl
  · intro hurls
    subst hurls
    have hex : ∀ st ∈ List.replicate nMax.toNat WStatus.exited, st = WStatus.exited := by
      intro st hst
      exact List.eq_of_mem_replicate hst
    have hrun : runSched rp ts spec (initState spec [] nMax.toNat) schedule =
        ⟨[], List.replicate nMax.toNat WStatus.exited, [], [], [], false⟩ := by
      rw [initState_nil_urls]
      exact runSched_all_exited rp ts spec _ schedule hex
    show shapeResult (runSched rp ts spec (initState spec [] nMax.toNat) schedule) =
      LoadResult.many []
    rw [hrun]
    have hexb : allExited (List.replicate nMax.toNat WStatus.exited) = true := by
      refine List.all_eq_true.mpr ?_
      intro st hst
      rw [List.eq_of_mem_replicate hst]
      rfl
    unfold shapeResult
    rw [if_neg (by simp), if_pos hexb]
    rfl

theorem c2_amended_witness :
    (loadBinaryResource [("a")] (-3) false (fun _ => none) [⟨[], some [7]⟩] [0]).spawned =
      Int.toNat (-3) ∧
    ((-3 : Int) ≤ 0 →
      (loadBinaryResource [("a")] (-3) false (fun _ => none) [⟨[], some [7]⟩] [0]).claimEvents =
        [] ∧
      (loadBinaryResource [("a")] (-3) false (fun _ => none)
        [⟨[], some [7]⟩] [0]).deliveredEvents = [] ∧
      ∀ t ∈ (loadBinaryResource [("a")] (-3) false (fun _ => none)
        [⟨[], some [7]⟩] [0]).finalTasks, t.result = []) ∧
    ([("a")] = ([] : List String) →
      (loadBinaryResource [("a")] (-3) false (fun _ => none) [⟨[], some [7]⟩] [0]).result =
        LoadResult.many []) :=
  c2_amended [("a")] (-3) false (fun _ => none) [⟨[], some [7]⟩] [0] (by simp)

/-- C9: the claim protocol.  In every run, the sequence of claimed task
indices is exactly `0, 1, 2, ...` — each claim takes the first (least)
unstarted task, in input order, and no task is ever claimed twice (so at
most one worker ever transitions a given task from unstarted to started);
and a worker can have returned normally (`exited`) only when every task had
already been claimed — finding no unstarted task is the only way the worker
loop returns. -/
theorem c9_claim_protocol (urls : List String) (nMax : Int) (rp : Bool)
    (headers : String → Option String) (spec : List Script) (schedule : List Nat)
    (hprobe : rp = true → ∃ sizes, probeAll headers urls = some sizes) :
    (loadBinaryResource urls nMax rp headers spec schedule).claimEvents =
      List.range (loadBinaryResource urls nMax rp headers spec schedule).claimEvents.length ∧
    (loadBinaryResource urls nMax rp headers spec schedule).claimEvents.length ≤
      urls.length ∧
    (loadBinaryResource urls nMax rp headers spec schedule).claimEvents.Nodup ∧
    (WStatus.exited ∈ (loadBinaryResource urls nMax rp headers spec schedule).finalWorkers →
      (loadBinaryResource urls nMax rp headers spec schedule).claimEvents.length =
        urls.length) := by
  obtain ⟨ts, hload⟩ := load_run_eq urls nMax rp headers spec schedule hprobe
  rw [hload]
  have hInv := runSched_inv rp ts spec urls.length _ schedule
    (initState_inv rp ts spec urls nMax.toNat)
  refine ⟨hInv.claims_eq, hInv.claims_le, ?_, ?_⟩
  · show (runSched rp ts spec (initState spec urls nMax.toNat) schedule).claimEvents.Nodup
    rw [hInv.claims_eq]
    exact List.nodup_range _
  · intro hmem
    obtain ⟨w, hw, heq⟩ := List.mem_iff_getElem.mp hmem
    exact hInv.exited_full w hw heq

theorem c9_claim_protocol_witness :
    (loadBinaryResource [("a"), ("b")] 1 false (fun _ => none)
        [⟨[], some [1]⟩, ⟨[], some [2]⟩] [0, 0, 0]).claimEvents =
      List.range (loadBinaryResource [("a"), ("b")] 1 false (fun _ => none)
        [⟨[], some [1]⟩, ⟨[], some [2]⟩] [0, 0, 0]).claimEvents.length ∧
    (loadBinaryResource [("a"), ("b")] 1 false (fun _ => none)
        [⟨[], some [1]⟩, ⟨[], some [2]⟩] [0, 0, 0]).claimEvents.length ≤
      [("a"), ("b")].length ∧
    (loadBinaryResource [("a"), ("b")] 1 false (fun _ => none)
        [⟨[], some [1]⟩, ⟨[], some [2]⟩] [0, 0, 0]).claimEvents.Nodup ∧
    (WStatus.exited ∈ (loadBinaryResource [("a"), ("b")] 1 false (fun _ => none)
        [⟨[], some [1]⟩, ⟨[], some [2]⟩] [0, 0, 0]).finalWorkers →
      (loadBinaryResource [("a"), ("b")] 1 false (fun _ => none)
        [⟨[], some [1]⟩, ⟨[], some [2]⟩] [0, 0, 0]).claimEvents.length =
        [("a"), ("b")].length) :=
  c9_claim_protocol [("a"), ("b")] 1 false (fun _ => none)
    [⟨[], some [1]⟩, ⟨[], some [2]⟩] [0, 0, 0] (by simp)



/-- C1 counterexample: two tasks, two workers; task 0 resolves with
`[1,2,3]`, task 1's transfer fails.  In the run where the failure settles
first and task 0 completes afterwards (`schedule [1, 0]`), the registry
holds task 0's completed buffer, yet the call rejects (`error`) and returns
nothing — a JavaScript rejection carries only the error, so completed
buffers ARE discarded from the caller's point of view.  And in the run
`schedule [1]`, the call is already rejected while worker 0 has not exited:
`Promise.all` settles at the first rejection instead of waiting for every
worker. -/
theorem c1_counterexample :
    (loadBinaryResource [("a"), ("b")] 2 false (fun _ => none)
        [⟨[], some [1, 2, 3]⟩, ⟨[], none⟩] [1, 0]).result = LoadResult.error ∧
    (loadBinaryResource [("a"), ("b")] 2 false (fun _ => none)
        [⟨[], some [1, 2, 3]⟩, ⟨[], none⟩] [1, 0]).finalTasks.map Task.result =
      [[1, 2, 3], []] ∧
    (loadBinaryResource [("a"), ("b")] 2 false (fun _ => none)
        [⟨[], some [1, 2, 3]⟩, ⟨[], none⟩] [1]).result = LoadResult.error ∧
    allExited (loadBinaryResource [("a"), ("b")] 2 false (fun _ => none)
        [⟨[], some [1, 2, 3]⟩, ⟨[], none⟩] [1]).finalWorkers = false := by
  refine ⟨?_, ?_, ?_, ?_⟩ <;> decide

/-- C1 amended: a failed fetch stops only that worker's loop — other
workers are not cancelled, keep running (their progress events and registry
writes still happen, as the counterexample run shows), and any buffer a
worker completes is genuinely its script's bytes, failure elsewhere or not.
But the call itself rejects exactly when some worker has failed, without
waiting for the remaining workers, and a rejection returns no partial
results to the caller. -/
theorem c1_amended (urls : List String) (nMax : Int) (rp : Bool)
    (headers : String → Option String) (spec : List Script) (schedule : List Nat)
    (hprobe : rp = true → ∃ sizes, probeAll headers urls = some sizes) :
    ((loadBinaryResource urls nMax rp headers spec schedule).result = LoadResult.error ↔
      WStatus.failed ∈ (loadBinaryResource urls nMax rp headers spec schedule).finalWorkers) ∧
    (∀ (i : Nat)
        (hi : i < (loadBinaryResource urls nMax rp headers spec schedule).finalTasks.length),
      ((loadBinaryResource urls nMax rp headers spec schedule).finalTasks[i]).result = [] ∨
        (scriptOf spec i).outcome =
          some (((loadBinaryResource urls nMax rp headers spec schedule).finalTasks[i]).result)) := by
  obtain ⟨ts, hload⟩ := load_run_eq urls nMax rp headers spec schedule hprobe
  rw [hload]
  have hInv := runSched_inv rp ts spec urls.length _ schedule
    (initState_inv rp ts spec urls nMax.toNat)
  constructor
  · show shapeResult (runSched rp ts spec (initState spec urls nMax.toNat) schedule) =
      LoadResult.error ↔ _
    rw [shapeResult_error_iff, hInv.rej_iff]
    constructor
    · rintro ⟨w, hw, heq⟩
      rw [← heq]
      exact List.getElem_mem hw
    · intro hmem
      obtain ⟨w, hw, heq⟩ := List.mem_iff_getElem.mp hmem
      exact ⟨w, hw, heq⟩
  · intro i hi
    exact result_provenance rp ts spec urls.length _ hInv i hi

theorem c1_amended_witness :
    ((loadBinaryResource [("a"), ("b")] 2 false (fun _ => none)
        [⟨[], some [1, 2, 3]⟩, ⟨[], none⟩] [1, 0]).result = LoadResult.error ↔
      WStatus.failed ∈ (loadBinaryResource [("a"), ("b")] 2 false (fun _ => none)
        [⟨[], some [1, 2, 3]⟩, ⟨[], none⟩] [1, 0]).finalWorkers) ∧
    (∀ (i : Nat)
        (hi : i < (loadBinaryResource [("a"), ("b")] 2 false (fun _ => none)
          [⟨[], some [1, 2, 3]⟩, ⟨[], none⟩] [1, 0]).finalTasks.length),
      ((loadBinaryResource [("a"), ("b")] 2 false (fun _ => none)
          [⟨[], some [1, 2, 3]⟩, ⟨[], none⟩] [1, 0]).finalTasks[i]).result = [] ∨
        (scriptOf [⟨[], some [1, 2, 3]⟩, ⟨[], none⟩] i).outcome =
          some (((loadBinaryResource [("a"), ("b")] 2 false (fun _ => none)
            [⟨[], some [1, 2, 3]⟩, ⟨[], none⟩] [1, 0]).finalTasks[i]).result)) :=
  c1_amended [("a"), ("b")] 2 false (fun _ => none)
    [⟨[], some [1, 2, 3]⟩, ⟨[], none⟩] [1, 0] (by simp)

theorem shapeResult_completed (s : SchedState) (he : shapeResult s ≠ LoadResult.error)
    (hpend : shapeResult s ≠ LoadResult.pending) :
    s.rejected = false ∧ allExited s.workers = true := by
  unfold shapeResult at he hpend
  by_cases hr : s.rejected = true
  · rw [if_pos hr] at he
    exact absurd rfl he
  · rw [if_neg hr] at hpend
    by_cases hex : allExited s.workers = true
    · exact ⟨by simpa using hr, hex⟩
    · rw [if_neg hex] at hpend
      exact absurd rfl hpend

/-- C4: shape and order of the returned value.  Whenever the call settles
with results (neither a rejection nor still pending), the result mirrors
the input: exactly one identifier yields the single unwrapped buffer — not
a one-element list — holding the bytes task 0 resolved with, and any other
identifier count yields a list of buffers of the input length with entry
`i` holding precisely the bytes task `i` resolved with. -/
theorem c4_result_shape (urls : List String) (nMax : Int) (rp : Bool)
    (headers : String → Option String) (spec : List Script) (schedule : List Nat)
    (hn : 1 ≤ nMax)
    (hprobe : rp = true → ∃ sizes, probeAll headers urls = some sizes)
    (herr : (loadBinaryResource urls nMax rp headers spec schedule).result ≠
      LoadResult.error)
    (hpend : (loadBinaryResource urls nMax rp headers spec schedule).result ≠
      LoadResult.pending) :
    (urls.length = 1 →
      ∃ b, (loadBinaryResource urls nMax rp headers spec schedule).result =
          LoadResult.single b ∧
        (scriptOf spec 0).outcome = some b ∧
        ∀ bs, (loadBinaryResource urls nMax rp headers spec schedule).result ≠
          LoadResult.many bs) ∧
    (urls.length ≠ 1 →
      ∃ bs, (loadBinaryResource urls nMax rp headers spec schedule).result =
          LoadResult.many bs ∧
        bs.length = urls.length ∧
        ∀ (i : Nat) (hi : i < bs.length), (scriptOf spec i).outcome = some bs[i]) := by
  obtain ⟨ts, hload⟩ := load_run_eq urls nMax rp headers spec schedule hprobe
  rw [hload] at herr hpend ⊢
  have hInv := runSched_inv rp ts spec urls.length _ schedule
    (initState_inv rp ts spec urls nMax.toNat)
  have hwlen : (runSched rp ts spec (initState spec urls nMax.toNat) schedule).workers.length =
      nMax.toNat := by
    rw [runSched_workers_length, initState_workers_length]
  have hwne : (runSched rp ts spec (initState spec urls nMax.toNat) schedule).workers ≠ [] := by
    refine List.length_pos.mp ?_
    rw [hwlen]
    omega
  have herr2 : shapeResult (runSched rp ts spec (initState spec urls nMax.toNat) schedule) ≠
      LoadResult.error := herr
  have hpend2 : shapeResult (runSched rp ts spec (initState spec urls nMax.toNat) schedule) ≠
      LoadResult.pending := hpend
  obtain ⟨hrej, hex⟩ := shapeResult_completed _ herr2 hpend2
  constructor
  · intro h1
    have hlen1 : (runSched rp ts spec (initState spec urls nMax.toNat) schedule).tasks.length =
        1 := by
      rw [hInv.tlen]
      exact h1
    obtain ⟨t, hts⟩ := List.length_eq_one.mp hlen1
    have hshape : shapeResult (runSched rp ts spec (initState spec urls nMax.toNat) schedule) =
        LoadResult.single t.result := by
      unfold shapeResult
      rw [hrej]
      simp only [Bool.false_eq_true, if_false]
      rw [if_pos hex, hts]
    have h0 : 0 < (runSched rp ts spec
        (initState spec urls nMax.toNat) schedule).tasks.length := by
      omega
    have hdone := all_done_of_completed rp ts spec urls.length _ hInv hex hwne hrej 0 h0
    have ht0 : (runSched rp ts spec (initState spec urls nMax.toNat) schedule).tasks[0] = t := by
      have hq : (runSched rp ts spec (initState spec urls nMax.toNat) schedule).tasks[0]? =
          some t := by
        rw [hts]
        simp
      have hg := List.getElem?_eq_getElem h0
      rw [hq] at hg
      injection hg with hg2
      exact hg2.symm
    refine ⟨t.result, hshape, ?_, ?_⟩
    · rw [← ht0]
      exact hdone.1
    · intro bs hcontra
      have hcc : LoadResult.single t.result = LoadResult.many bs := by
        rw [← hshape]
        exact hcontra
      exact LoadResult.noConfusion hcc
  · intro hne1
    have hlen : (runSched rp ts spec (initState spec urls nMax.toNat) schedule).tasks.length =
        urls.length := hInv.tlen
    have hshape : shapeResult (runSched rp ts spec (initState spec urls nMax.toNat) schedule) =
        LoadResult.many ((runSched rp ts spec
          (initState spec urls nMax.toNat) schedule).tasks.map Task.result) := by
      unfold shapeResult
      rw [hrej]
      simp only [Bool.false_eq_true, if_false]
      rw [if_pos hex]
      cases hts : (runSched rp ts spec (initState spec urls nMax.toNat) schedule).tasks with
      | nil => rfl
      | cons t rest =>
          cases rest with
          | nil =>
              exfalso
              apply hne1
              rw [← hlen, hts]
              rfl
          | cons t2 r2 => rfl
    refine ⟨_, hshape, ?_, ?_⟩
    · rw [List.length_map]
      exact hlen
    · intro i hi
      have hit : i < (runSched rp ts spec
          (initState spec urls nMax.toNat) schedule).tasks.length := by
        rw [List.length_map] at hi
        exact hi
      have hdone := all_done_of_completed rp ts spec urls.length _ hInv hex hwne hrej i hit
      rw [List.getElem_map]
      exact hdone.1

theorem c4_result_shape_witness :
    ((1 : Int) ≤ 1 ∧
     (false = true → ∃ sizes, probeAll (fun _ => none) [("a")] = some sizes) ∧
     (loadBinaryResource [("a")] 1 false (fun _ => none) [⟨[], some [9]⟩] [0, 0]).result ≠
        LoadResult.error ∧
     (loadBinaryResource [("a")] 1 false (fun _ => none) [⟨[], some [9]⟩] [0, 0]).result ≠
        LoadResult.pending) ∧
    (([("a")] : List String).length = 1 →
      ∃ b, (loadBinaryResource [("a")] 1 false (fun _ => none)
          [⟨[], some [9]⟩] [0, 0]).result = LoadResult.single b ∧
        (scriptOf [⟨[], some [9]⟩] 0).outcome = some b ∧
        ∀ bs, (loadBinaryResource [("a")] 1 false (fun _ => none)
          [⟨[], some [9]⟩] [0, 0]).result ≠ LoadResult.many bs) ∧
    (([("a")] : List String).length ≠ 1 →
      ∃ bs, (loadBinaryResource [("a")] 1 false (fun _ => none)
          [⟨[], some [9]⟩] [0, 0]).result = LoadResult.many bs ∧
        bs.length = ([("a")] : List String).length ∧
        ∀ (i : Nat) (hi : i < bs.length),
          (scriptOf [⟨[], some [9]⟩] i).outcome = some bs[i]) :=
  ⟨⟨by omega, by simp, by decide, by decide⟩,
   c4_result_shape [("a")] 1 false (fun _ => none) [⟨[], some [9]⟩] [0, 0]
     (by omega) (by simp) (by decide) (by decide)⟩



/-- C7: on every delivered transport event the aggregate progress callback
is invoked, and the whole invocation list is exactly what recomputation
from the raw delivery history prescribes: the `loaded` argument of the
`j`-th invocation is the sum over all tasks of their latest reported loaded
count after `j+1` events, and the `total` argument of every invocation is
the one fixed value `sumArr` of the probed sizes, computed once before any
worker starts and never revised. -/
theorem c7_aggregate_refinement (urls : List String) (nMax : Int)
    (headers : String → Option String) (spec : List Script) (schedule : List Nat)
    (sizes : List (Option Int)) (hp : probeAll headers urls = some sizes) :
    (loadBinaryResource urls nMax true headers spec schedule).invocations =
      aggregateOf urls.length (sumArrJS sizes)
        (loadBinaryResource urls nMax true headers spec schedule).deliveredEvents ∧
    ∀ p ∈ (loadBinaryResource urls nMax true headers spec schedule).invocations,
      p.2 = sumArrJS sizes := by
  rw [load_true_eq urls nMax headers spec schedule sizes hp]
  have hInv := runSched_inv true (sumArrJS sizes) spec urls.length _ schedule
    (initState_inv true (sumArrJS sizes) spec urls nMax.toNat)
  have hiv : (runSched true (sumArrJS sizes) spec
      (initState spec urls nMax.toNat) schedule).invocations =
      aggregateOf urls.length (sumArrJS sizes)
        (runSched true (sumArrJS sizes) spec
          (initState spec urls nMax.toNat) schedule).deliveredEvents := by
    simpa using hInv.inv_eq
  refine ⟨hiv, ?_⟩
  intro p hmem
  have hmem2 : p ∈ aggregateOf urls.length (sumArrJS sizes)
      (runSched true (sumArrJS sizes) spec
        (initState spec urls nMax.toNat) schedule).deliveredEvents := by
    rw [← hiv]
    exact hmem
  unfold aggregateOf at hmem2
  obtain ⟨j, _, hpj⟩ := List.mem_map.mp hmem2
  rw [← hpj]

theorem c7_aggregate_refinement_witness :
    (loadBinaryResource [("a")] 1 true (fun _ => some ("4")) [⟨[(2, 4)], some [5, 6]⟩]
        [0, 0]).invocations =
      aggregateOf [("a")].length (sumArrJS [some 4])
        (loadBinaryResource [("a")] 1 true (fun _ => some ("4")) [⟨[(2, 4)], some [5, 6]⟩]
          [0, 0]).deliveredEvents ∧
    ∀ p ∈ (loadBinaryResource [("a")] 1 true (fun _ => some ("4")) [⟨[(2, 4)], some [5, 6]⟩]
        [0, 0]).invocations, p.2 = sumArrJS [some 4] :=
  c7_aggregate_refinement [("a")] 1 (fun _ => some ("4")) [⟨[(2, 4)], some [5, 6]⟩] [0, 0]
    [some 4] (by decide)

/-- C8: assuming each task's transport reports non-decreasing loaded
counts, the `loaded` argument of the aggregate callback is monotonically
non-decreasing across successive invocations; and when the call resolves
(with at least one worker), the final invocation's `loaded` equals the sum
over all tasks of their final (last-reported) byte counts. -/
theorem c8_monotone_aggregate (urls : List String) (nMax : Int)
    (headers : String → Option String) (spec : List Script) (schedule : List Nat)
    (sizes : List (Option Int)) (hp : probeAll headers urls = some sizes)
    (hmono : ∀ i, List.Chain' (· ≤ ·) ((scriptOf spec i).events.map Prod.fst)) :
    List.Chain' (fun a b => a.1 ≤ b.1)
      (loadBinaryResource urls nMax true headers spec schedule).invocations ∧
    (1 ≤ nMax →
      (loadBinaryResource urls nMax true headers spec schedule).result ≠ LoadResult.error →
      (loadBinaryResource urls nMax true headers spec schedule).result ≠ LoadResult.pending →
      ∀ p, (loadBinaryResource urls nMax true headers spec schedule).invocations.getLast? =
          some p →
        p.1 = ((List.range urls.length).map
          (fun i => (((scriptOf spec i).events.map Prod.fst).getLast?).getD 0)).sum) := by
  rw [load_true_eq urls nMax headers spec schedule sizes hp]
  have hInv := runSched_inv true (sumArrJS sizes) spec urls.length _ schedule
    (initState_inv true (sumArrJS sizes) spec urls nMax.toNat)
  have hiv : (runSched true (sumArrJS sizes) spec
      (initState spec urls nMax.toNat) schedule).invocations =
      aggregateOf urls.length (sumArrJS sizes)
        (runSched true (sumArrJS sizes) spec
          (initState spec urls nMax.toNat) schedule).deliveredEvents := by
    simpa using hInv.inv_eq
  have hhistmono : ∀ i, List.Chain' (· ≤ ·)
      ((historyFor (runSched true (sumArrJS sizes) spec
        (initState spec urls nMax.toNat) schedule).deliveredEvents i).map Prod.fst) := by
    intro i
    by_cases hi : i < (runSched true (sumArrJS sizes) spec
        (initState spec urls nMax.toNat) schedule).tasks.length
    · obtain ⟨k, hk⟩ := history_prefix true (sumArrJS sizes) spec urls.length _ hInv i hi
      rw [hk]
      refine List.Chain'.prefix (hmono i) ?_
      have : ((scriptOf spec i).events.take k).map Prod.fst =
          ((scriptOf spec i).events.map Prod.fst).take k := by
        rw [List.map_take]
      rw [this]
      exact List.take_prefix _ _
    · rw [historyFor_of_ge _ urls.length hInv.ev_bound i (by rw [← hInv.tlen]; omega)]
      simp
  constructor
  · show List.Chain' (fun a b => a.1 ≤ b.1) (runSched true (sumArrJS sizes) spec
      (initState spec urls nMax.toNat) schedule).invocations
    rw [hiv]
    exact aggregate_mono urls.length (sumArrJS sizes) _ hhistmono
  · intro hn herr hpend p hlast
    have hcomp := shapeResult_completed _ herr hpend
    have hwne : (runSched true (sumArrJS sizes) spec
        (initState spec urls nMax.toNat) schedule).workers ≠ [] := by
      refine List.length_pos.mp ?_
      rw [runSched_workers_length, initState_workers_length]
      omega
    have hlast2 : (aggregateOf urls.length (sumArrJS sizes)
        (runSched true (sumArrJS sizes) spec
          (initState spec urls nMax.toNat) schedule).deliveredEvents).getLast? = some p := by
      rw [← hiv]
      exact hlast
    cases hh : (runSched true (sumArrJS sizes) spec
        (initState spec urls nMax.toNat) schedule).deliveredEvents with
    | nil =>
        rw [hh] at hlast2
        simp [aggregateOf] at hlast2
    | cons e0 hrest =>
        have hne : (runSched true (sumArrJS sizes) spec
            (initState spec urls nMax.toNat) schedule).deliveredEvents ≠ [] := by
          rw [hh]
          simp
        rw [aggregateOf_getLast urls.length (sumArrJS sizes) _ hne] at hlast2
        injection hlast2 with hpv
        rw [← hpv]
        show sumLoaded urls.length _ = _
        unfold sumLoaded
        congr 1
        refine List.map_congr_left ?_
        intro i hi
        have hi2 : i < (runSched true (sumArrJS sizes) spec
            (initState spec urls nMax.toNat) schedule).tasks.length := by
          rw [hInv.tlen]
          exact List.mem_range.mp hi
        have hdone := all_done_of_completed true (sumArrJS sizes) spec urls.length _ hInv
          hcomp.2 hwne hcomp.1 i hi2
        unfold lastLoadedOf
        rw [hdone.2]

theorem c8_monotone_aggregate_witness :
    List.Chain' (fun a b => a.1 ≤ b.1)
      (loadBinaryResource [("a")] 1 true (fun _ => some ("4"))
        [⟨[(2, 4), (4, 4)], some [5, 6]⟩] [0, 0, 0]).invocations ∧
    ((1 : Int) ≤ 1 →
      (loadBinaryResource [("a")] 1 true (fun _ => some ("4"))
        [⟨[(2, 4), (4, 4)], some [5, 6]⟩] [0, 0, 0]).result ≠ LoadResult.error →
      (loadBinaryResource [("a")] 1 true (fun _ => some ("4"))
        [⟨[(2, 4), (4, 4)], some [5, 6]⟩] [0, 0, 0]).result ≠ LoadResult.pending →
      ∀ p, (loadBinaryResource [("a")] 1 true (fun _ => some ("4"))
          [⟨[(2, 4), (4, 4)], some [5, 6]⟩] [0, 0, 0]).invocations.getLast? = some p →
        p.1 = ((List.range [("a")].length).map
          (fun i => (((scriptOf [⟨[(2, 4), (4, 4)], some [5, 6]⟩] i).events.map
            Prod.fst).getLast?).getD 0)).sum) :=
  c8_monotone_aggregate [("a")] 1 (fun _ => some ("4")) [⟨[(2, 4), (4, 4)], some [5, 6]⟩]
    [0, 0, 0] [some 4] (by decide)
    (by
      intro i
      match i with
      | 0 =>
          show List.Chain' (· ≤ ·) [2, 4]
          refine List.chain'_pair.mpr ?_
          omega
      | Nat.succ j =>
          show List.Chain' (· ≤ ·) ((scriptOf [⟨[(2, 4), (4, 4)], some [5, 6]⟩]
            (j + 1)).events.map Prod.fst)
          have : scriptOf [⟨[(2, 4), (4, 4)], some [5, 6]⟩] (j + 1) = dummyScript := by
            unfold scriptOf
            rw [List.getD_eq_default]
            simp
          rw [this]
          simp [dummyScript])



/-! ## C10: the transport-declared total is never read

An erasure that zeroes every transport-declared total (in pending scripts,
in the registry's `sizeTotal` fields, and in the delivery history) commutes
with every step of the machine; everything the caller observes lives in the
erased quotient, so two runs differing only in transport totals are
observationally identical. -/

def eraseScript (sc : Script) : Script :=
  ⟨sc.events.map (fun e => (e.1, 0)), sc.outcome⟩

def eraseStatus : WStatus → WStatus
  | WStatus.fetching i sc => WStatus.fetching i (eraseScript sc)
  | WStatus.exited => WStatus.exited
  | WStatus.failed => WStatus.failed

def eraseTask (t : Task) : Task :=
  ⟨t.url, t.result, t.started, 0, t.sizeLoaded⟩

def eraseEvent (e : Nat × Nat × Nat) : Nat × Nat × Nat :=
  (e.1, e.2.1, 0)

def eraseState (s : SchedState) : SchedState :=
  ⟨s.tasks.map eraseTask, s.workers.map eraseStatus, s.invocations,
   s.deliveredEvents.map eraseEvent, s.claimEvents, s.rejected⟩

theorem getD_map_workers (ws : List WStatus) (w : Nat) :
    (ws.map eraseStatus).getD w WStatus.exited = eraseStatus (ws.getD w WStatus.exited) := by
  rcases Nat.lt_or_ge w ws.length with hw | hw
  · rw [List.getD_eq_getElem _ _ (by simpa using hw), List.getD_eq_getElem _ _ hw]
    simp
  · rw [List.getD_eq_default _ _ (by simpa using hw), List.getD_eq_default _ _ hw]
    rfl

theorem getD_map_tasks (l : List Task) (i : Nat) :
    (l.map eraseTask).getD i dummyTask = eraseTask (l.getD i dummyTask) := by
  rcases Nat.lt_or_ge i l.length with hi | hi
  · rw [List.getD_eq_getElem _ _ (by simpa using hi), List.getD_eq_getElem _ _ hi]
    simp
  · rw [List.getD_eq_default _ _ (by simpa using hi), List.getD_eq_default _ _ hi]
    rfl

theorem firstUnstarted_map_erase (tasks : List Task) :
    firstUnstarted (tasks.map eraseTask) = firstUnstarted tasks := by
  induction tasks with
  | nil => rfl
  | cons t ts ih =>
      show firstUnstarted (eraseTask t :: ts.map eraseTask) = _
      unfold firstUnstarted
      rw [ih]
      rfl

theorem scriptOf_map_erase (spec : List Script) (i : Nat) :
    scriptOf (spec.map eraseScript) i = eraseScript (scriptOf spec i) := by
  unfold scriptOf
  rcases Nat.lt_or_ge i spec.length with hi | hi
  · rw [List.getD_eq_getElem _ _ (by simpa using hi), List.getD_eq_getElem _ _ hi]
    simp
  · rw [List.getD_eq_default _ _ (by simpa using hi), List.getD_eq_default _ _ hi]
    rfl

theorem map_sizeLoaded_erase (l : List Task) :
    (l.map eraseTask).map Task.sizeLoaded = l.map Task.sizeLoaded := by
  rw [List.map_map]
  refine List.map_congr_left ?_
  intro t _
  rfl

theorem claimNext_erase (spec : List Script) (tasks : List Task) (claims : List Nat) :
    claimNext (spec.map eraseScript) (tasks.map eraseTask) claims =
      ((claimNext spec tasks claims).1.map eraseTask,
       eraseStatus (claimNext spec tasks claims).2.1,
       (claimNext spec tasks claims).2.2) := by
  unfold claimNext
  rw [firstUnstarted_map_erase]
  cases firstUnstarted tasks with
  | none => rfl
  | some i =>
      show ((tasks.map eraseTask).set i _, _, _) = _
      rw [getD_map_tasks, scriptOf_map_erase]
      rw [show ({ eraseTask (tasks.getD i dummyTask) with started := true }) =
        eraseTask ({ tasks.getD i dummyTask with started := true }) from rfl]
      rw [← List.map_set]
      rfl

theorem spawnOne_erase (spec : List Script) (s : SchedState) :
    spawnOne (spec.map eraseScript) (eraseState s) = eraseState (spawnOne spec s) := by
  unfold spawnOne
  simp only [eraseState]
  rw [claimNext_erase]
  simp [List.map_append]

theorem spawnN_erase (spec : List Script) (k : Nat) (s : SchedState) :
    spawnN (spec.map eraseScript) k (eraseState s) = eraseState (spawnN spec k s) := by
  induction k generalizing s with
  | zero => rfl
  | succ m ih =>
      show spawnN (spec.map eraseScript) m (spawnOne (spec.map eraseScript) (eraseState s)) = _
      rw [spawnOne_erase, ih]
      rfl

theorem initState_erase (spec : List Script) (urls : List String) (k : Nat) :
    initState (spec.map eraseScript) urls k = eraseState (initState spec urls k) := by
  have hbase : eraseState ⟨urls.map initTask, [], [], [], [], false⟩ =
      (⟨urls.map initTask, [], [], [], [], false⟩ : SchedState) := by
    have ht : (urls.map initTask).map eraseTask = urls.map initTask := by
      rw [List.map_map]
      exact List.map_congr_left (fun u _ => rfl)
    unfold eraseState
    simp [ht]
  unfold initState
  rw [← spawnN_erase, hbase]

theorem eraseTask_size (t : Task) (a b : Nat) :
    ({ eraseTask t with sizeTotal := 0, sizeLoaded := a }) =
      eraseTask ({ t with sizeTotal := b, sizeLoaded := a }) := rfl

theorem eraseTask_result (t : Task) (bytes : List Nat) :
    ({ eraseTask t with result := bytes }) = eraseTask ({ t with result := bytes }) := rfl

set_option maxHeartbeats 1000000 in
theorem stepWorker_erase (rp : Bool) (ts : Option Int) (spec : List Script)
    (s : SchedState) (w : Nat) :
    stepWorker rp ts (spec.map eraseScript) (eraseState s) w =
      eraseState (stepWorker rp ts spec s w) := by
  by_cases hw : w < s.workers.length
  · have hw2 : w < (eraseState s).workers.length := by
      show w < (s.workers.map eraseStatus).length
      simpa using hw
    have hget : (eraseState s).workers[w] = eraseStatus (s.workers[w]) := by
      show (s.workers.map eraseStatus)[w] = _
      simp
    cases hst : s.workers[w] with
    | exited =>
        rw [stepWorker_exited rp ts spec s w hw hst,
          stepWorker_exited rp ts (spec.map eraseScript) (eraseState s) w hw2
            (by rw [hget, hst]; rfl)]
    | failed =>
        rw [stepWorker_failed rp ts spec s w hw hst,
          stepWorker_failed rp ts (spec.map eraseScript) (eraseState s) w hw2
            (by rw [hget, hst]; rfl)]
    | fetching i sc =>
        rcases sc with ⟨events, out⟩
        cases events with
        | cons e rest =>
            have hstE : (eraseState s).workers[w] =
                WStatus.fetching i ⟨(e.1, 0) :: rest.map (fun x => (x.1, 0)), out⟩ := by
              rw [hget, hst]
              rfl
            rw [stepWorker_deliver rp ts spec s w hw i e rest out hst,
              stepWorker_deliver rp ts (spec.map eraseScript) (eraseState s) w hw2 i (e.1, 0)
                (rest.map (fun x => (x.1, 0))) out hstE]
            unfold eraseState
            dsimp only
            rw [SchedState.mk.injEq]
            refine ⟨?_, ?_, ?_, ?_, rfl, rfl⟩
            · rw [getD_map_tasks, List.map_set]
              rfl
            · rw [List.map_set]
              rfl
            · cases rp with
              | false => rfl
              | true =>
                  simp only [eq_self_iff_true, if_true]
                  rw [List.map_set, List.map_set, map_sizeLoaded_erase]
            · rw [List.map_append]
              rfl
        | nil =>
            cases out with
            | some bytes =>
                have hstE : (eraseState s).workers[w] =
                    WStatus.fetching i ⟨[], some bytes⟩ := by
                  rw [hget, hst]
                  rfl
                rw [stepWorker_settle_ok rp ts spec s w hw i bytes hst,
                  stepWorker_settle_ok rp ts (spec.map eraseScript) (eraseState s) w hw2 i
                    bytes hstE]
                unfold eraseState
                dsimp only
                have hTS : ((s.tasks.map eraseTask).set i
                    { (s.tasks.map eraseTask).getD i dummyTask with result := bytes }) =
                    (s.tasks.set i { s.tasks.getD i dummyTask with result := bytes }).map
                      eraseTask := by
                  rw [getD_map_tasks, List.map_set]
                  rfl
                rw [hTS, claimNext_erase]
                dsimp only
                rw [SchedState.mk.injEq]
                refine ⟨rfl, ?_, rfl, rfl, rfl, rfl⟩
                rw [List.map_set]
            | none =>
                have hstE : (eraseState s).workers[w] =
                    WStatus.fetching i ⟨[], none⟩ := by
                  rw [hget, hst]
                  rfl
                rw [stepWorker_settle_fail rp ts spec s w hw i hst,
                  stepWorker_settle_fail rp ts (spec.map eraseScript) (eraseState s) w hw2 i
                    hstE]
                unfold eraseState
                dsimp only
                rw [SchedState.mk.injEq]
                refine ⟨rfl, ?_, rfl, rfl, rfl, rfl⟩
                rw [List.map_set]
                rfl
  · have hw2 : ¬ w < (eraseState s).workers.length := by
      show ¬ w < (s.workers.map eraseStatus).length
      simpa using hw
    rw [stepWorker_oob rp ts spec s w (by omega),
      stepWorker_oob rp ts (spec.map eraseScript) (eraseState s) w (by omega)]

theorem runSched_erase (rp : Bool) (ts : Option Int) (spec : List Script)
    (s : SchedState) (schedule : List Nat) :
    runSched rp ts (spec.map eraseScript) (eraseState s) schedule =
      eraseState (runSched rp ts spec s schedule) := by
  induction schedule generalizing s with
  | nil => rfl
  | cons w ws ih =>
      show runSched rp ts (spec.map eraseScript)
        (stepWorker rp ts (spec.map eraseScript) (eraseState s) w) ws = _
      rw [stepWorker_erase, ih]
      rfl

theorem allExited_map_erase (ws : List WStatus) :
    allExited (ws.map eraseStatus) = allExited ws := by
  unfold allExited
  rw [List.all_map]
  induction ws with
  | nil => rfl
  | cons st rest ih =>
      rw [List.all_cons, List.all_cons, ih]
      congr 1
      cases st <;> rfl

theorem shapeResult_erase (s : SchedState) :
    shapeResult (eraseState s) = shapeResult s := by
  unfold shapeResult
  show (if s.rejected then LoadResult.error
    else if allExited (s.workers.map eraseStatus) then
      match s.tasks.map eraseTask with
      | [t] => LoadResult.single t.result
      | ts => LoadResult.many (ts.map Task.result)
    else LoadResult.pending) = _
  rw [allExited_map_erase]
  by_cases hr : s.rejected = true
  · rw [if_pos hr, if_pos hr]
  · rw [if_neg hr, if_neg hr]
    by_cases he : allExited s.workers = true
    · rw [if_pos he, if_pos he]
      cases hts : s.tasks with
      | nil => rfl
      | cons t rest =>
          cases rest with
          | nil => rfl
          | cons t2 r2 =>
              show LoadResult.many (((t :: t2 :: r2).map eraseTask).map Task.result) = _
              rw [List.map_map]
              congr 1
    · rw [if_neg he, if_neg he]

theorem map_result_erase (l : List Task) :
    (l.map eraseTask).map Task.result = l.map Task.result := by
  rw [List.map_map]
  exact List.map_congr_left (fun t _ => rfl)

theorem final_state_erase_eq (rp : Bool) (ts : Option Int) (spec₁ spec₂ : List Script)
    (urls : List String) (k : Nat) (schedule : List Nat)
    (hspec : spec₁.map eraseScript = spec₂.map eraseScript) :
    eraseState (runSched rp ts spec₁ (initState spec₁ urls k) schedule) =
      eraseState (runSched rp ts spec₂ (initState spec₂ urls k) schedule) := by
  rw [← runSched_erase, ← runSched_erase, ← initState_erase, ← initState_erase, hspec]

theorem erased_eq_components (s₁ s₂ : SchedState) (h : eraseState s₁ = eraseState s₂) :
    shapeResult s₁ = shapeResult s₂ ∧ s₁.invocations = s₂.invocations ∧
      s₁.tasks.map Task.result = s₂.tasks.map Task.result := by
  refine ⟨?_, ?_, ?_⟩
  · rw [← shapeResult_erase s₁, ← shapeResult_erase s₂, h]
  · have h2 : (eraseState s₁).invocations = (eraseState s₂).invocations := by rw [h]
    exact h2
  · have h2 : (eraseState s₁).tasks.map Task.result =
        (eraseState s₂).tasks.map Task.result := by rw [h]
    have h3 : (s₁.tasks.map eraseTask).map Task.result =
        (s₂.tasks.map eraseTask).map Task.result := h2
    rw [map_result_erase, map_result_erase] at h3
    exact h3

/-- C10: the transport-declared per-transfer totals are non-interfering: two
runs whose transfer scripts agree except in the total field of each progress
event (their erasures under `eraseScript` coincide) produce the same returned
result shape, the same aggregate progress invocations (loaded and total
arguments alike), and the same final per-task buffers — the `sizeTotal` field
written on each progress event is never read. -/
theorem c10_total_noninterference (urls : List String) (nMaxParallel : Int)
    (reportProgress : Bool) (headers : String → Option String)
    (spec₁ spec₂ : List Script) (schedule : List Nat)
    (hspec : spec₁.map eraseScript = spec₂.map eraseScript) :
    (loadBinaryResource urls nMaxParallel reportProgress headers spec₁ schedule).result =
      (loadBinaryResource urls nMaxParallel reportProgress headers spec₂ schedule).result ∧
    (loadBinaryResource urls nMaxParallel reportProgress headers spec₁ schedule).invocations =
      (loadBinaryResource urls nMaxParallel reportProgress headers spec₂ schedule).invocations ∧
    (loadBinaryResource urls nMaxParallel reportProgress headers spec₁
        schedule).finalTasks.map Task.result =
      (loadBinaryResource urls nMaxParallel reportProgress headers spec₂
        schedule).finalTasks.map Task.result := by
  cases reportProgress with
  | false =>
      rw [load_false_eq, load_false_eq]
      exact erased_eq_components _ _
        (final_state_erase_eq false (some (-1)) spec₁ spec₂ urls nMaxParallel.toNat schedule
          hspec)
  | true =>
      cases hpa : probeAll headers urls with
      | none =>
          rw [load_probe_fail_eq urls nMaxParallel headers spec₁ schedule hpa,
            load_probe_fail_eq urls nMaxParallel headers spec₂ schedule hpa]
          exact ⟨rfl, rfl, rfl⟩
      | some sizes =>
          rw [load_true_eq urls nMaxParallel headers spec₁ schedule sizes hpa,
            load_true_eq urls nMaxParallel headers spec₂ schedule sizes hpa]
          exact erased_eq_components _ _
            (final_state_erase_eq true (sumArrJS sizes) spec₁ spec₂ urls nMaxParallel.toNat
              schedule hspec)

/-- C10 witness: two concrete two-file runs whose transfer events differ only
in the declared totals satisfy the hypothesis and yield identical observable
outcomes. -/
theorem c10_total_noninterference_witness :
    (([⟨[(5, 10)], some [1]⟩, ⟨[(3, 7)], some [2]⟩] : List Script).map eraseScript =
      ([⟨[(5, 99)], some [1]⟩, ⟨[(3, 0)], some [2]⟩] : List Script).map eraseScript) ∧
    ((loadBinaryResource [("a"), ("b")] 2 true (fun _ => some ("8"))
        [⟨[(5, 10)], some [1]⟩, ⟨[(3, 7)], some [2]⟩] [0, 1, 0, 1, 0, 1]).result =
      (loadBinaryResource [("a"), ("b")] 2 true (fun _ => some ("8"))
        [⟨[(5, 99)], some [1]⟩, ⟨[(3, 0)], some [2]⟩] [0, 1, 0, 1, 0, 1]).result ∧
     (loadBinaryResource [("a"), ("b")] 2 true (fun _ => some ("8"))
        [⟨[(5, 10)], some [1]⟩, ⟨[(3, 7)], some [2]⟩] [0, 1, 0, 1, 0, 1]).invocations =
      (loadBinaryResource [("a"), ("b")] 2 true (fun _ => some ("8"))
        [⟨[(5, 99)], some [1]⟩, ⟨[(3, 0)], some [2]⟩] [0, 1, 0, 1, 0, 1]).invocations ∧
     (loadBinaryResource [("a"), ("b")] 2 true (fun _ => some ("8"))
        [⟨[(5, 10)], some [1]⟩, ⟨[(3, 7)], some [2]⟩]
        [0, 1, 0, 1, 0, 1]).finalTasks.map Task.result =
      (loadBinaryResource [("a"), ("b")] 2 true (fun _ => some ("8"))
        [⟨[(5, 99)], some [1]⟩, ⟨[(3, 0)], some [2]⟩]
        [0, 1, 0, 1, 0, 1]).finalTasks.map Task.result) :=
  ⟨by decide, c10_total_noninterference [("a"), ("b")] 2 true (fun _ => some ("8"))
      [⟨[(5, 10)], some [1]⟩, ⟨[(3, 7)], some [2]⟩]
      [⟨[(5, 99)], some [1]⟩, ⟨[(3, 0)], some [2]⟩] [0, 1, 0, 1, 0, 1] (by decide)⟩

end Wllama
